import Mathlib

/-!
# Verification of the go-rag retrieval pipeline

Shallow embedding of the core of the `go-rag` RAG service (Go) in Lean 4,
together with proofs and refutations of the frozen specification claims.

Conventions used throughout:
* Go `float32`/`float64` values are modelled as exact rationals (`ℚ`); none of
  the verified claims depends on IEEE-754 rounding.
* Go strings are modelled as `String` when they are opaque payloads (texts that
  are only passed around and measured), and as `List Char` (`Str`) where the
  code inspects them character by character.  Go's `len` on a string counts
  bytes; for the character classes the code manipulates (ASCII) this agrees
  with the character count used here.
* Go `int` is modelled as `Int` where a value can meaningfully be negative
  (chunk indices, response indices) and as `Nat` for sizes and counts that the
  code only ever derives from lengths.
* External collaborators (the embedding HTTP endpoint, the SQLite/sqlite-vec
  database, the vector distance function) are modelled as explicit parameters
  or explicit state, following the behaviour documented for them.
* Loops whose termination metric is not structural use a fuel parameter; every
  caller supplies fuel that is provably sufficient, and all claims are stated
  so that fuel exhaustion can only produce the error branch, never a wrong
  success.
-/

/-- Character-list model of Go strings that are inspected char by char. -/
abbrev Str := List Char

/-- Embedding vector (Go `[]float32`), elements modelled as rationals. -/
abbrev Vec := List ℚ

section StringUtil

/-- Does `needle` occur at the head of `hay`? -/
def matchesAt : Str → Str → Bool
  | [], _ => true
  | _ :: _, [] => false
  | a :: as, b :: bs => a == b && matchesAt as bs

/-- Does `needle` occur anywhere in `hay`?  Model of Go `strings.Contains`. -/
def containsSub (needle : Str) : Str → Bool
  | [] => needle.isEmpty
  | c :: tl => matchesAt needle (c :: tl) || containsSub needle tl

/-- Model of Go `strings.Contains hay needle` on `String`s. -/
def strContains (hay needle : String) : Bool :=
  containsSub needle.data hay.data

/-- ASCII lower-casing, model of Go `strings.ToLower` for the ASCII strings
the code compares. -/
def strToLower (s : String) : String :=
  String.mk (s.data.map Char.toLower)

end StringUtil

/-! ## Embedding client (src/core/embedding_service.go) -/

section EmbeddingService

-- Constants of embedding_service.go.
def maxTokensPerBatch : Nat := 8000
def maxCharsPerToken : Nat := 4
def maxBatchSizeLimit : Nat := 64
def minBatchSize : Nat := 1

/-- `isOversizedBatchError`: the error-message substrings treated as an
oversized-batch condition. -/
def oversizedIndicators : List String :=
  ["too large", "input is too large", "increase the physical batch size",
   "context length exceeded", "maximum context length", "token limit",
   "input size"]

/-- Model of `isOversizedBatchError` (errors carry their message string). -/
def isOversizedBatchError (msg : String) : Bool :=
  oversizedIndicators.any (fun ind => strContains (strToLower msg) ind)

/-- `getEmbeddingDimension`: known model-name → dimension table. -/
def modelDimensions : List (String × Nat) :=
  [("mxbai-embed-large", 1024), ("mxbai-embed-large:large", 1024),
   ("nomic-embed-text-v1.5", 768), ("text-embedding-ada-002", 1536),
   ("text-embedding-3-small", 1536), ("text-embedding-3-large", 3072)]

/-- Model of `getEmbeddingDimension`: table lookup, default 1024. -/
def getEmbeddingDimension (modelName : String) : Nat :=
  match modelDimensions.lookup modelName with
  | some d => d
  | none => 1024

/-- One `data` entry of the embedding API response
(`models.EmbeddingResponseData`): an index (Go `int`) and a vector. -/
structure EmbData where
  index : Int
  embedding : Vec
  deriving Repr, DecidableEq

/-- Reply of the external embedding endpoint for one HTTP request:
either a failure carrying the message the client will inspect, or a decoded
`data` array. -/
inductive SrvReply where
  | fail (msg : String)
  | data (d : List EmbData)

/-- The external embedding endpoint, as a function from the request's text
batch to its reply.  The endpoint is modelled as deterministic (the retry
loop of the client then observes the same reply on every attempt). -/
abbrev Srv := List String → SrvReply

/-- The reassembly loop of `sendEmbeddingRequest`: place each `data` entry at
its `index` in the result slice (initially `nil` entries), failing on an
out-of-bounds index. -/
def placeData : List EmbData → List Vec → Except String (List Vec)
  | [], acc => .ok acc
  | d :: ds, acc =>
    if 0 ≤ d.index ∧ d.index < (acc.length : Int) then
      placeData ds (acc.set d.index.toNat d.embedding)
    else .error "embedding data index out of bounds"

/-- Model of `sendEmbeddingRequest`: one request/response exchange, with the
count check and index-based reassembly of the response. -/
def sendEmbeddingRequest (srv : Srv) (texts : List String) :
    Except String (List Vec) :=
  match srv texts with
  | .fail msg => .error msg
  | .data d =>
    if d.length ≠ texts.length then
      .error "mismatch in number of embeddings returned"
    else placeData d (List.replicate texts.length [])

/-- The retry loop body of `processBatchWithRetry`, with `remaining` retry
attempts left (`maxRetries = 3`): `res` is the (deterministic) outcome of
`sendEmbeddingRequest` for this batch, `split` the outcome of splitting the
batch in half and recursing, and `len` the batch size.  Go's
`attempt == maxRetries-1` test corresponds to `remaining = 1`. -/
def attemptLoop (dim : Nat) (split : Except String (List Vec)) (len : Nat) :
    Except String (List Vec) → Nat → Except String (List Vec)
  | _, 0 => .error "exceeded maximum retry attempts"
  | .ok es, _ + 1 => .ok es
  | .error e, remaining + 1 =>
    if isOversizedBatchError e ∧ len = 1 then
      -- single oversized text: zero-vector placeholder, no error
      .ok [List.replicate dim 0]
    else if isOversizedBatchError e ∧ len > 1 then
      split
    else if remaining = 0 ∨ len ≤ minBatchSize then
      .error ("failed after attempts: " ++ e)
    else
      attemptLoop dim split len (.error e) remaining

/-- Model of `processBatchWithRetry`.  The fuel bounds the depth of recursive
batch halving; `fuel ≥ texts.length` always suffices.  The endpoint being
deterministic, a repeated attempt observes the same reply, which the model
reflects by passing the same `res` to every attempt. -/
def processBatchWithRetry (srv : Srv) (modelName : String) :
    Nat → List String → Except String (List Vec)
  | 0, _ => .error "fuel exhausted"
  | fuel + 1, texts =>
    let mid := texts.length / 2
    let split :=
      match processBatchWithRetry srv modelName fuel (texts.take mid) with
      | .error e1 => .error ("failed to process first half of split batch: " ++ e1)
      | .ok f =>
        match processBatchWithRetry srv modelName fuel (texts.drop mid) with
        | .error e2 => .error ("failed to process second half of split batch: " ++ e2)
        | .ok s => .ok (f ++ s)
    attemptLoop (getEmbeddingDimension modelName) split texts.length
      (sendEmbeddingRequest srv texts) 3

/-- The inner loop of `createAdaptiveBatches`: starting from the text suffix
`rest`, accumulate texts into the current batch while staying within the
batch-size and token limits.  Returns the texts of the batch (always a prefix
of `rest`). -/
def fillBatch : List String → Nat → Nat → List String
  | [], _, _ => []
  | t :: ts, batchSize, currentChars =>
    if batchSize ≥ maxBatchSizeLimit then []
    else if (currentChars + t.length) / maxCharsPerToken > maxTokensPerBatch
        ∧ batchSize > 0 then []
    else if t.length / maxCharsPerToken > maxTokensPerBatch then
      -- very large single text: processed alone when it starts a batch
      (if batchSize = 0 then [t] else [])
    else t :: fillBatch ts (batchSize + 1) (currentChars + t.length)

/-- Outer loop of `createAdaptiveBatches`: cut the text list into consecutive
batches, recording each batch's `StartIndex`.  `fuel ≥ texts.length`
suffices since every batch is non-empty. -/
def createBatchesAux (texts : List String) (startIdx : Nat) :
    Nat → List (Nat × List String)
  | 0 => []
  | fuel + 1 =>
    match texts with
    | [] => []
    | _ :: _ =>
      let b := fillBatch texts 0 0
      (startIdx, b) ::
        createBatchesAux (texts.drop b.length) (startIdx + b.length) fuel

/-- Model of `createAdaptiveBatches`. -/
def createAdaptiveBatches (texts : List String) : List (Nat × List String) :=
  createBatchesAux texts 0 texts.length

/-- The placement loop of `GetEmbeddings`: write the batch results `es` into
the result slice starting at global index `g`, skipping out-of-range indices
(as the Go bound check does). -/
def placeBatchResults : List Vec → Nat → List Vec → List Vec
  | acc, _, [] => acc
  | acc, g, e :: es =>
    placeBatchResults (if g < acc.length then acc.set g e else acc) (g + 1) es

/-- Process every batch in order, placing each batch's embeddings at its
start index. -/
def runBatches (srv : Srv) (modelName : String) :
    List (Nat × List String) → List Vec → Except String (List Vec)
  | [], acc => .ok acc
  | (st, b) :: bs, acc =>
    match processBatchWithRetry srv modelName (b.length + 1) b with
    | .error e => .error ("failed to process batch: " ++ e)
    | .ok es => runBatches srv modelName bs (placeBatchResults acc st es)

/-- Model of `GetEmbeddings`: adaptive batching, per-batch retry/split, index
placement, and the final not-populated validation. -/
def GetEmbeddings (srv : Srv) (modelName : String) (texts : List String) :
    Except String (List Vec) :=
  if texts.isEmpty then .ok []
  else
    match runBatches srv modelName (createAdaptiveBatches texts)
        (List.replicate texts.length []) with
    | .error e => .error e
    | .ok embs =>
      if embs.any (fun e => e.isEmpty) then
        .error "embedding was not populated"
      else .ok embs

end EmbeddingService

/-! ## Claims C10 and C7: empty input, single oversized text -/

/-- **C10.** `GetEmbeddings` on an empty text list returns an empty vector
list and no error.  The statement holds for *every* endpoint `srv`, i.e. the
result does not depend on the endpoint at all: no request is issued. -/
theorem getEmbeddings_empty_input (srv : Srv) (modelName : String) :
    GetEmbeddings srv modelName [] = .ok [] := rfl

/-- **C7.** A batch of a single text whose request fails with an
oversized-batch error succeeds with a zero placeholder vector of the model's
nominal dimension; the error is not propagated.  Conjoined: the known-model
dimension table entries named by the claim, and the default of 1024 for
unknown model names. -/
theorem processBatchWithRetry_single_oversized (srv : Srv)
    (modelName msg t : String) (fuel : Nat)
    (hfail : srv [t] = .fail msg)
    (hover : isOversizedBatchError msg = true) :
    processBatchWithRetry srv modelName (fuel + 1) [t]
        = .ok [List.replicate (getEmbeddingDimension modelName) 0]
      ∧ getEmbeddingDimension "nomic-embed-text-v1.5" = 768
      ∧ getEmbeddingDimension "text-embedding-ada-002" = 1536
      ∧ getEmbeddingDimension "text-embedding-3-large" = 3072
      ∧ (∀ m, modelDimensions.lookup m = none → getEmbeddingDimension m = 1024) := by
  refine ⟨?_, rfl, rfl, rfl, ?_⟩
  · simp [processBatchWithRetry, sendEmbeddingRequest, hfail, attemptLoop, hover]
  · intro m hm; simp [getEmbeddingDimension, hm]

/-- An endpoint that rejects every request as oversized. -/
def srvAllOversized : Srv := fun _ => .fail "input is too large"

/-- Witness for C7 at a concrete endpoint, message and model name. -/
theorem processBatchWithRetry_single_oversized_witness :
    (srvAllOversized ["x"] = .fail "input is too large")
      ∧ (isOversizedBatchError "input is too large" = true)
      ∧ (processBatchWithRetry srvAllOversized "some-unknown-model" 1 ["x"]
            = .ok [List.replicate (getEmbeddingDimension "some-unknown-model") 0]
          ∧ getEmbeddingDimension "nomic-embed-text-v1.5" = 768
          ∧ getEmbeddingDimension "text-embedding-ada-002" = 1536
          ∧ getEmbeddingDimension "text-embedding-3-large" = 3072
          ∧ (∀ m, modelDimensions.lookup m = none → getEmbeddingDimension m = 1024)) :=
  ⟨rfl, by decide,
    processBatchWithRetry_single_oversized srvAllOversized "some-unknown-model"
      "input is too large" "x" 0 rfl (by decide)⟩

/-! ## Claim C1: `GetEmbeddings` returns N vectors in input positions -/

/-- The retry loop can only succeed by direct success, by the size-1
placeholder, or by a successful split. -/
theorem attemptLoop_ok {res split : Except String (List Vec)}
    {dim len : Nat} {es : List Vec} :
    ∀ {n : Nat}, attemptLoop dim split len res n = .ok es →
      res = .ok es ∨ (len = 1 ∧ es = [List.replicate dim 0])
        ∨ (1 < len ∧ split = .ok es) := by
  intro n
  induction n with
  | zero => intro h; simp [attemptLoop] at h
  | succ n ih =>
    intro h
    cases res with
    | ok es' => simp only [attemptLoop] at h; exact Or.inl h
    | error e =>
      simp only [attemptLoop] at h
      split_ifs at h with h1 h2 h3
      · injection h with h'
        exact Or.inr (Or.inl ⟨h1.2, h'.symm⟩)
      · exact Or.inr (Or.inr ⟨h2.2, h⟩)
      · exact ih h

/-- Per-batch positional correctness of `processBatchWithRetry`: whenever it
succeeds (with any fuel), it produces as many vectors as the batch has texts,
and the vector at each position is either the endpoint's embedding of the
text at that position or the zero placeholder.  The hypothesis states that
the endpoint's successful replies reassemble to the per-text embeddings
`E`. -/
theorem processBatchWithRetry_ok_spec (srv : Srv) (mdl : String)
    (E : String → Vec)
    (hsend : ∀ ts es, sendEmbeddingRequest srv ts = .ok es → es = ts.map E) :
    ∀ fuel ts es, processBatchWithRetry srv mdl fuel ts = .ok es →
      es.length = ts.length ∧
      ∀ i t, ts.get? i = some t →
        es.get? i = some (E t)
          ∨ es.get? i = some (List.replicate (getEmbeddingDimension mdl) 0) := by
  intro fuel
  induction fuel with
  | zero => intro ts es h; simp [processBatchWithRetry] at h
  | succ fuel ih =>
    intro ts es h
    unfold processBatchWithRetry at h
    rcases attemptLoop_ok h with hok | ⟨hlen, hes⟩ | ⟨hlen, hsplit⟩
    · have hes := hsend ts es hok
      subst hes
      refine ⟨by simp, fun i t ht => Or.inl ?_⟩
      rw [List.get?_map, ht]
      rfl
    · subst hes
      refine ⟨by simpa using hlen.symm, fun i t ht => Or.inr ?_⟩
      have hi : i < ts.length := by
        rcases List.get?_eq_some.mp ht with ⟨hlt, -⟩
        exact hlt
      have hi0 : i = 0 := by omega
      subst hi0
      rfl
    · set mid := ts.length / 2 with hmid
      cases hf : processBatchWithRetry srv mdl fuel (ts.take mid) with
      | error e1 => rw [hf] at hsplit; simp at hsplit
      | ok f =>
        cases hs : processBatchWithRetry srv mdl fuel (ts.drop mid) with
        | error e2 => rw [hf, hs] at hsplit; simp at hsplit
        | ok s =>
          rw [hf, hs] at hsplit
          simp only at hsplit
          injection hsplit with hsplit
          subst hsplit
          obtain ⟨hflen, hfspec⟩ := ih _ _ hf
          obtain ⟨hslen, hsspec⟩ := ih _ _ hs
          have hmidle : mid ≤ ts.length := Nat.div_le_self _ _
          have hflen' : f.length = mid := by
            rw [hflen, List.length_take]; omega
          constructor
          · rw [List.length_append, hflen, hslen, List.length_take,
              List.length_drop]; omega
          · intro i t ht
            by_cases hcase : i < mid
            · have h1 : (f ++ s).get? i = f.get? i :=
                List.get?_append (by omega)
              have h2 : (ts.take mid).get? i = some t := by
                rw [List.get?_take hcase]; exact ht
              rw [h1]; exact hfspec i t h2
            · have h1 : (f ++ s).get? i = s.get? (i - mid) := by
                rw [List.get?_append_right (by omega), hflen']
              have h2 : (ts.drop mid).get? (i - mid) = some t := by
                rw [List.get?_drop]
                have : mid + (i - mid) = i := by omega
                rw [this]; exact ht
              rw [h1]; exact hsspec _ t h2

/-- `bs` tiles the text list `rest` starting at global index `s`: the batches'
texts concatenate to `rest` and their start indices are consistent. -/
inductive Tiles : Nat → List String → List (Nat × List String) → Prop
  | nil (s : Nat) : Tiles s [] []
  | cons (s : Nat) (b rest' : List String) (bs' : List (Nat × List String)) :
      Tiles (s + b.length) rest' bs' → Tiles s (b ++ rest') ((s, b) :: bs')

/-- The batch filled from `rest` is an initial segment of `rest`. -/
theorem fillBatch_decomp :
    ∀ (rest : List String) (bs cc : Nat),
      fillBatch rest bs cc ++ rest.drop (fillBatch rest bs cc).length = rest := by
  intro rest
  induction rest with
  | nil => intro bs cc; simp [fillBatch]
  | cons t ts ih =>
    intro bs cc
    unfold fillBatch
    repeat' split
    all_goals simp_all

/-- A batch started at a non-empty suffix is non-empty. -/
theorem fillBatch_ne_nil (t : String) (ts : List String) (cc : Nat) :
    fillBatch (t :: ts) 0 cc ≠ [] := by
  unfold fillBatch
  repeat' split
  all_goals simp_all [maxBatchSizeLimit]

/-- With sufficient fuel, `createBatchesAux` tiles its input. -/
theorem createBatchesAux_tiles :
    ∀ (fuel : Nat) (rest : List String) (start : Nat),
      rest.length ≤ fuel → Tiles start rest (createBatchesAux rest start fuel) := by
  intro fuel
  induction fuel with
  | zero =>
    intro rest start hle
    have : rest = [] := List.length_eq_zero.mp (Nat.le_zero.mp hle)
    subst this
    exact Tiles.nil start
  | succ fuel ih =>
    intro rest start hle
    match rest with
    | [] => exact Tiles.nil start
    | t :: ts =>
      show Tiles start (t :: ts)
        ((start, fillBatch (t :: ts) 0 0) ::
          createBatchesAux ((t :: ts).drop (fillBatch (t :: ts) 0 0).length)
            (start + (fillBatch (t :: ts) 0 0).length) fuel)
      set b := fillBatch (t :: ts) 0 0 with hb
      have hdec : b ++ (t :: ts).drop b.length = t :: ts := fillBatch_decomp _ 0 0
      have hbne : b ≠ [] := fillBatch_ne_nil t ts 0
      have hblen : 1 ≤ b.length := List.length_pos.mpr hbne
      have hrec : Tiles (start + b.length) ((t :: ts).drop b.length)
          (createBatchesAux ((t :: ts).drop b.length) (start + b.length) fuel) := by
        apply ih
        have : ((t :: ts).drop b.length).length = (t :: ts).length - b.length :=
          List.length_drop _ _
        simp only [this]
        simp only [List.length_cons] at hle ⊢
        omega
      have := Tiles.cons start b ((t :: ts).drop b.length) _ hrec
      rwa [hdec] at this

/-- Placement does not change the length of the result slice. -/
theorem placeBatchResults_length :
    ∀ (es acc : List Vec) (g : Nat),
      (placeBatchResults acc g es).length = acc.length := by
  intro es
  induction es with
  | nil => intro acc g; rfl
  | cons e es ih =>
    intro acc g
    unfold placeBatchResults
    rw [ih]
    split <;> simp

/-- Placement leaves positions outside `[g, g + es.length)` unchanged. -/
theorem placeBatchResults_get?_outside :
    ∀ (es acc : List Vec) (g j : Nat), j < g ∨ g + es.length ≤ j →
      (placeBatchResults acc g es).get? j = acc.get? j := by
  intro es
  induction es with
  | nil => intro acc g j _; rfl
  | cons e es ih =>
    intro acc g j hj
    unfold placeBatchResults
    rw [ih _ _ _ (by simp only [List.length_cons] at hj; omega)]
    split
    · exact List.get?_set_ne _ _
        (by simp only [List.length_cons] at hj; omega)
    · rfl

/-- Placement writes `es` at consecutive positions starting at `g`, provided
the batch fits inside the slice. -/
theorem placeBatchResults_get?_inside :
    ∀ (es acc : List Vec) (g i : Nat),
      g + es.length ≤ acc.length → i < es.length →
      (placeBatchResults acc g es).get? (g + i) = es.get? i := by
  intro es
  induction es with
  | nil => intro acc g i _ hi; simp at hi
  | cons e es ih =>
    intro acc g i hfit hi
    unfold placeBatchResults
    have hg : g < acc.length := by simp at hfit; omega
    cases i with
    | zero =>
      rw [placeBatchResults_get?_outside _ _ _ _ (Or.inl (by omega))]
      simp only [if_pos hg, Nat.add_zero]
      exact List.get?_set_eq_of_lt _ hg
    | succ i =>
      have harith : g + (i + 1) = (g + 1) + i := by omega
      have hfit' : (g + 1) + es.length ≤ ((if g < acc.length then acc.set g e else acc)).length := by
        split <;> simp only [List.length_set, List.length_cons] at hfit ⊢ <;> omega
      rw [harith, ih _ (g + 1) i hfit' (by simp only [List.length_cons] at hi; omega)]
      rfl

/-- Running the batches of a tiling writes, for every text of the tiled
region, either its embedding or the placeholder at its global position, and
leaves all other positions of the result slice unchanged. -/
theorem runBatches_spec (srv : Srv) (mdl : String) (E : String → Vec)
    (hsend : ∀ ts es, sendEmbeddingRequest srv ts = .ok es → es = ts.map E) :
    ∀ (bs : List (Nat × List String)) (start : Nat) (rest : List String)
      (acc out : List Vec),
      Tiles start rest bs → start + rest.length ≤ acc.length →
      runBatches srv mdl bs acc = .ok out →
      out.length = acc.length ∧
      (∀ i t, rest.get? i = some t →
        out.get? (start + i) = some (E t)
          ∨ out.get? (start + i) = some (List.replicate (getEmbeddingDimension mdl) 0)) ∧
      (∀ j, j < start ∨ start + rest.length ≤ j → out.get? j = acc.get? j) := by
  intro bs start rest acc out htiles
  induction htiles generalizing acc out with
  | nil s =>
    intro _ hrun
    injection hrun with hrun
    subst hrun
    exact ⟨rfl, fun i t ht => by simp at ht, fun j _ => rfl⟩
  | cons s b rest' bs' htl ih =>
    intro hfit hrun
    unfold runBatches at hrun
    cases hpbr : processBatchWithRetry srv mdl (b.length + 1) b with
    | error e => rw [hpbr] at hrun; simp at hrun
    | ok es =>
      rw [hpbr] at hrun
      simp only at hrun
      obtain ⟨heslen, hesspec⟩ :=
        processBatchWithRetry_ok_spec srv mdl E hsend _ _ _ hpbr
      have hlen : (b ++ rest').length = b.length + rest'.length :=
        List.length_append _ _
      rw [hlen] at hfit
      set acc' := placeBatchResults acc s es with hacc'
      have hacclen' : acc'.length = acc.length := placeBatchResults_length _ _ _
      have hfit' : (s + b.length) + rest'.length ≤ acc'.length := by omega
      obtain ⟨hout, hin', hout'⟩ := ih acc' out hfit' hrun
      refine ⟨by omega, ?_, ?_⟩
      · intro i t ht
        by_cases hcase : i < b.length
        · -- position inside this batch, untouched by the later batches
          have h1 : out.get? (s + i) = acc'.get? (s + i) :=
            hout' (s + i) (Or.inl (by omega))
          have h2 : acc'.get? (s + i) = es.get? i := by
            rw [hacc']
            exact placeBatchResults_get?_inside es acc s i (by omega) (by omega)
          have h3 : b.get? i = some t := by
            rw [← List.get?_append hcase]; exact ht
          rw [h1, h2]
          exact hesspec i t h3
        · -- position inside the later batches
          have h3 : rest'.get? (i - b.length) = some t := by
            rw [← ht, List.get?_append_right (by omega)]
          have := hin' (i - b.length) t h3
          have harith : s + b.length + (i - b.length) = s + i := by
            have hi : i < (b ++ rest').length := by
              rcases List.get?_eq_some.mp ht with ⟨hlt, -⟩
              exact hlt
            omega
          rwa [harith] at this
      · intro j hj
        have h1 : out.get? j = acc'.get? j :=
          hout' j (by omega)
        have h2 : acc'.get? j = acc.get? j := by
          rw [hacc']
          exact placeBatchResults_get?_outside es acc s j (by omega)
        rw [h1, h2]

/-- **C1.** Whenever `GetEmbeddings` succeeds on `N` texts, it returns
exactly `N` vectors, and the vector at every position `i` is the embedding of
the text at position `i` (or, for texts whose singleton batch stayed
oversized, the zero placeholder the code substitutes for that text) — even
when batches are recursively halved and per-batch results reassembled by
index.  The hypothesis characterises the external endpoint: whatever its
batching and response index order, a successful reply reassembles (via
`sendEmbeddingRequest`) to the per-text embedding function `E` in request
order. -/
theorem getEmbeddings_positional (srv : Srv) (mdl : String) (E : String → Vec)
    (hsend : ∀ ts es, sendEmbeddingRequest srv ts = .ok es → es = ts.map E)
    (texts : List String) (embs : List Vec)
    (h : GetEmbeddings srv mdl texts = .ok embs) :
    embs.length = texts.length ∧
    ∀ i t, texts.get? i = some t →
      embs.get? i = some (E t)
        ∨ embs.get? i = some (List.replicate (getEmbeddingDimension mdl) 0) := by
  unfold GetEmbeddings at h
  by_cases hemp : texts.isEmpty
  · rw [if_pos hemp] at h
    injection h with h
    subst h
    have : texts = [] := List.isEmpty_iff.mp hemp
    subst this
    exact ⟨rfl, fun i t ht => by simp at ht⟩
  · rw [if_neg hemp] at h
    cases hrun : runBatches srv mdl (createAdaptiveBatches texts)
        (List.replicate texts.length []) with
    | error e => rw [hrun] at h; simp at h
    | ok out =>
      rw [hrun] at h
      simp only at h
      split_ifs at h
      injection h with h
      subst h
      have htiles : Tiles 0 texts (createAdaptiveBatches texts) :=
        createBatchesAux_tiles texts.length texts 0 le_rfl
      obtain ⟨hlen, hin, -⟩ :=
        runBatches_spec srv mdl E hsend _ _ _ _ _ htiles
          (by simp) hrun
      refine ⟨by simpa using hlen, fun i t ht => ?_⟩
      have := hin i t ht
      simpa using this

/-- A concrete per-text embedding (the text's length, as a 1-dim vector). -/
def Estub (t : String) : Vec := [(t.length : ℚ)]

/-- A concrete endpoint: rejects batches of more than 2 texts as oversized,
and answers smaller batches with the `data` entries in *reversed* index
order (exercising the index-based reassembly). -/
def srvSplitStub : Srv := fun ts =>
  if ts.length > 2 then .fail "input is too large"
  else .data (((ts.map Estub).enum.map (fun p => EmbData.mk (p.1 : Int) p.2)).reverse)

/-- `srvSplitStub` satisfies the endpoint characterisation of C1. -/
theorem srvSplitStub_send (ts : List String) (es : List Vec)
    (h : sendEmbeddingRequest srvSplitStub ts = .ok es) : es = ts.map Estub := by
  match ts with
  | [] =>
    simp [sendEmbeddingRequest, srvSplitStub, placeData] at h
    simp [h]
  | [a] =>
    simp [sendEmbeddingRequest, srvSplitStub, placeData, List.enum] at h
    simp [← h]
  | [a, b] =>
    simp [sendEmbeddingRequest, srvSplitStub, placeData, List.enum] at h
    simp [← h]
  | a :: b :: c :: rest =>
    simp [sendEmbeddingRequest, srvSplitStub] at h

def fiveTexts : List String := ["a", "bb", "ccc", "dddd", "eeeee"]

/-- Witness for C1: five texts against `srvSplitStub` — the single batch of
five is halved down to sub-batches of ≤ 2, every sub-batch answers with
reversed indices, and the five vectors still come back in input order. -/
theorem getEmbeddings_positional_witness :
    (∀ ts es, sendEmbeddingRequest srvSplitStub ts = .ok es → es = ts.map Estub)
      ∧ GetEmbeddings srvSplitStub "m" fiveTexts = .ok (fiveTexts.map Estub)
      ∧ ((fiveTexts.map Estub).length = fiveTexts.length ∧
          ∀ i t, fiveTexts.get? i = some t →
            (fiveTexts.map Estub).get? i = some (Estub t)
              ∨ (fiveTexts.map Estub).get? i
                  = some (List.replicate (getEmbeddingDimension "m") 0)) := by
  have hGE : GetEmbeddings srvSplitStub "m" fiveTexts = .ok (fiveTexts.map Estub) := by
    rfl
  exact ⟨srvSplitStub_send, hGE,
    getEmbeddings_positional srvSplitStub "m" Estub srvSplitStub_send
      fiveTexts (fiveTexts.map Estub) hGE⟩

/-! ## Generic comparator sort

`sort.Slice` sorts by a comparator without a stability guarantee, and Go map
iteration order is unspecified; the model therefore exposes the enumeration
order of map entries as a parameter and applies a stable insertion sort to
it.  Every Go execution corresponds to some enumeration-order parameter. -/

section SortBy

variable {α : Type} (le : α → α → Bool)

/-- Insert `a` into `l`, before the first element `b` with `le a b`. -/
def insertLe (a : α) : List α → List α
  | [] => [a]
  | b :: bs => if le a b then a :: b :: bs else b :: insertLe a bs

/-- Insertion sort by the comparator `le` (stable). -/
def insertionSortBy : List α → List α
  | [] => []
  | a :: as => insertLe le a (insertionSortBy as)

theorem insertLe_perm (a : α) : ∀ l, List.Perm (insertLe le a l) (a :: l) := by
  intro l
  induction l with
  | nil => exact List.Perm.refl _
  | cons b bs ih =>
    unfold insertLe
    split
    · exact List.Perm.refl _
    · exact List.Perm.trans (List.Perm.cons b ih) (List.Perm.swap a b bs)

theorem insertionSortBy_perm : ∀ l, List.Perm (insertionSortBy le l) l := by
  intro l
  induction l with
  | nil => exact List.Perm.refl _
  | cons a as ih =>
    exact List.Perm.trans (insertLe_perm le a _) (List.Perm.cons a ih)

theorem mem_insertLe {x a : α} {l : List α} :
    x ∈ insertLe le a l ↔ x = a ∨ x ∈ l := by
  rw [(insertLe_perm le a l).mem_iff, List.mem_cons]

theorem insertLe_pairwise
    (htrans : ∀ x y z, le x y = true → le y z = true → le x z = true)
    (htot : ∀ x y, le x y = true ∨ le y x = true) (a : α) :
    ∀ l, l.Pairwise (fun x y => le x y = true) →
      (insertLe le a l).Pairwise (fun x y => le x y = true) := by
  intro l
  induction l with
  | nil => intro _; simp [insertLe]
  | cons b bs ih =>
    intro hp
    rcases List.pairwise_cons.mp hp with ⟨hb, hbs⟩
    unfold insertLe
    split
    case isTrue h =>
      refine List.pairwise_cons.mpr ⟨?_, hp⟩
      intro x hx
      rcases List.mem_cons.mp hx with rfl | hx
      · exact h
      · exact htrans a b x h (hb x hx)
    case isFalse h =>
      refine List.pairwise_cons.mpr ⟨?_, ih hbs⟩
      intro x hx
      rcases (mem_insertLe le).mp hx with heq | hx
      · rw [heq]; exact (htot a b).resolve_left h
      · exact hb x hx

theorem insertionSortBy_pairwise
    (htrans : ∀ x y z, le x y = true → le y z = true → le x z = true)
    (htot : ∀ x y, le x y = true ∨ le y x = true) :
    ∀ l, (insertionSortBy le l).Pairwise (fun x y => le x y = true) := by
  intro l
  induction l with
  | nil => simp [insertionSortBy]
  | cons a as ih => exact insertLe_pairwise le htrans htot a _ ih

theorem pairwise_take_drop {R : α → α → Prop} {l : List α} (h : l.Pairwise R)
    (n : Nat) : ∀ p ∈ l.take n, ∀ q ∈ l.drop n, R p q := by
  have hl := List.take_append_drop n l
  rw [← hl] at h
  exact (List.pairwise_append.mp h).2.2

end SortBy

/-! ## Keyword extraction (`extractKeywords`, src/unnamed/part_004) -/

section Keywords

/-- A word character of Go's regexp `\b` boundary: `[0-9A-Za-z_]`. -/
def isWordChar (c : Char) : Bool := c.isAlpha || c.isDigit || c == '_'

/-- Maximal runs of word characters in a string (accumulator holds the
current run reversed). -/
def wordRunsAux : Str → Str → List Str
  | acc, [] => if acc.isEmpty then [] else [acc.reverse]
  | acc, c :: cs =>
    if isWordChar c then wordRunsAux (c :: acc) cs
    else (if acc.isEmpty then [] else [acc.reverse]) ++ wordRunsAux [] cs

/-- The matches of `\b[a-zA-Z]{3,}\b` in `text`, in order: the maximal
word-character runs that consist solely of ASCII letters and have length at
least 3 (a run containing a digit or `_` has no word boundary inside, so the
pattern cannot match any part of it). -/
def regexTokens (text : Str) : List Str :=
  (wordRunsAux [] text).filter (fun w => w.length ≥ 3 && w.all Char.isAlpha)

/-- The stop-word set of `extractKeywords` (48 entries). -/
def stopWords : List Str :=
  ["the".data, "a".data, "an".data, "and".data, "or".data, "but".data,
   "in".data, "on".data, "at".data, "to".data, "for".data, "of".data,
   "with".data, "by".data, "is".data, "are".data, "was".data, "were".data,
   "be".data, "been".data, "have".data, "has".data, "had".data, "do".data,
   "does".data, "did".data, "will".data, "would".data, "could".data,
   "should".data, "this".data, "that".data, "these".data, "those".data,
   "i".data, "you".data, "he".data, "she".data, "it".data, "we".data,
   "they".data, "my".data, "your".data, "his".data, "her".data, "its".data,
   "our".data, "their".data]

/-- `wordCount[word]++`: increment the count of `w` in an association list,
appending a fresh entry on first occurrence (so the canonical list is in
first-appearance order). -/
def bumpCount (w : Str) : List (Str × Nat) → List (Str × Nat)
  | [] => [(w, 1)]
  | (k, n) :: rest =>
    if k = w then (k, n + 1) :: rest else (k, n) :: bumpCount w rest

/-- The frequency map built by `extractKeywords`: lowercase the text,
tokenize, and count each token that is neither a stop word nor shorter than
3 characters.  Listed in first-appearance order; a Go `map` holds the same
entries but enumerates them in an unspecified order. -/
def wordCounts (text : Str) : List (Str × Nat) :=
  (regexTokens (text.map Char.toLower)).foldl
    (fun acc w =>
      if stopWords.contains w ∨ w.length < 3 then acc else bumpCount w acc) []

/-- The comparator of `sort.Slice(frequencies, …)`: higher count first (the
non-strict form makes the model sort stable in its input order; the
unspecified Go tie order is covered by the enumeration-order parameter). -/
def byCountDesc (p q : Str × Nat) : Bool := decide (q.2 ≤ p.2)

/-- The tail of `extractKeywords` applied to one admissible enumeration
`enum` of the frequency map: sort by descending count and take the top 10
words. -/
def extractKeywordsFrom (enum : List (Str × Nat)) : List Str :=
  ((insertionSortBy byCountDesc enum).take 10).map Prod.fst

/-- Model of `extractKeywords` for one particular admissible execution: the
map enumerated in first-appearance order.  An arbitrary Go execution is
`extractKeywordsFrom enum` for some permutation `enum` of `wordCounts
text`. -/
def extractKeywords (text : Str) : List Str :=
  extractKeywordsFrom (wordCounts text)

end Keywords

/-- **C8 (amended).** For every text and every admissible enumeration `enum`
of the frequency map (any permutation — Go map iteration order is
unspecified), keyword extraction returns at most 10 tokens; every returned
token is a counted (lowercased, `\b[a-zA-Z]{3,}\b`-matched, non-stop-word)
token of the text; the sorted list is ordered by non-increasing frequency;
and every kept entry's frequency dominates every dropped entry's ("top 10 by
frequency").  The relative order of equal-frequency tokens depends on the
enumeration order and is *not* determined by first appearance in the text
(see the counterexample). -/
theorem extractKeywords_top10 (text : Str) (enum : List (Str × Nat))
    (hperm : List.Perm enum (wordCounts text)) :
    (extractKeywordsFrom enum).length ≤ 10
    ∧ (∀ w ∈ extractKeywordsFrom enum, ∃ c, (w, c) ∈ wordCounts text)
    ∧ (insertionSortBy byCountDesc enum).Pairwise (fun p q => q.2 ≤ p.2)
    ∧ (∀ p ∈ (insertionSortBy byCountDesc enum).take 10,
        ∀ q ∈ (insertionSortBy byCountDesc enum).drop 10, q.2 ≤ p.2) := by
  have htrans : ∀ x y z : Str × Nat,
      byCountDesc x y = true → byCountDesc y z = true → byCountDesc x z = true := by
    intro x y z hxy hyz
    simp only [byCountDesc, decide_eq_true_eq] at *
    omega
  have htot : ∀ x y : Str × Nat,
      byCountDesc x y = true ∨ byCountDesc y x = true := by
    intro x y
    simp only [byCountDesc, decide_eq_true_eq]
    omega
  have hsorted := insertionSortBy_pairwise byCountDesc htrans htot enum
  have hsorted' : (insertionSortBy byCountDesc enum).Pairwise
      (fun p q => q.2 ≤ p.2) := by
    refine hsorted.imp ?_
    intro p q h
    simpa [byCountDesc] using h
  refine ⟨?_, ?_, hsorted', pairwise_take_drop hsorted' 10⟩
  · simp only [extractKeywordsFrom, List.length_map, List.length_take]
    omega
  · intro w hw
    simp only [extractKeywordsFrom, List.mem_map] at hw
    obtain ⟨p, hp, hpw⟩ := hw
    have hpmem : p ∈ insertionSortBy byCountDesc enum :=
      List.mem_of_mem_take hp
    have hpmem' : p ∈ wordCounts text :=
      hperm.mem_iff.mp ((insertionSortBy_perm byCountDesc enum).mem_iff.mp hpmem)
    obtain ⟨pw, pc⟩ := p
    subst hpw
    exact ⟨pc, hpmem'⟩

/-- **C8 counterexample.** For the text `"abc def"` both tokens have
frequency 1 and `"abc"` appears first, yet the admissible execution whose
map enumeration yields `("def",1)` before `("abc",1)` (a legal Go map
iteration order) returns `["def","abc"]` — the equal-frequency tokens are
*not* in first-appearance order, refuting the claim's tie-order clause. -/
theorem extractKeywords_tie_order_cex :
    List.Perm [("def".data, 1), ("abc".data, 1)] (wordCounts "abc def".data)
    ∧ extractKeywordsFrom [("def".data, 1), ("abc".data, 1)]
        = ["def".data, "abc".data]
    ∧ regexTokens (("abc def".data).map Char.toLower)
        = ["abc".data, "def".data]
    ∧ (["def".data, "abc".data] : List Str) ≠ ["abc".data, "def".data] := by
  refine ⟨?_, by decide, by decide, by decide⟩
  have h : wordCounts "abc def".data = [("abc".data, 1), ("def".data, 1)] := by
    decide
  rw [h]
  exact List.Perm.swap ("abc".data, 1) ("def".data, 1) []

/-! ## Adaptive chunker (src/unnamed/part_004) -/

section Chunker

/-- `models.ChunkingConfig`. -/
structure ChunkingConfig where
  strategy : String := ""
  fixedSize : Nat := 0
  overlap : Nat := 0
  sentenceWindowSize : Nat := 0
  minChunkSize : Nat := 0
  maxChunkSize : Nat := 0
  preserveParagraphs : Bool := false
  extractKeywords : Bool := false
  deriving Repr, DecidableEq

/-- `models.EnhancedChunk`.  The Go `Section`/`Subsection` fields are named
`sectionTag`/`subsectionTag` (`section` is reserved in Lean); `Metadata` is
modelled as a string-valued association list (the query engine only ever
reads string values from it).  `ChunkIndex`, `StartPos`, `EndPos` are Go
`int`, modelled as `Int`. -/
structure EnhancedChunk where
  id : String := ""
  documentID : String := ""
  text : Str := []
  embedding : Vec := []
  parentChunkID : Option String := none
  childChunkIDs : List String := []
  sectionTag : Str := []
  subsectionTag : Str := []
  chunkType : String := ""
  startPos : Int := 0
  endPos : Int := 0
  chunkIndex : Int := 0
  keywords : List Str := []
  metadata : List (String × String) := []
  confidence : ℚ := 0
  deriving Repr, DecidableEq

/-- Whitespace for `strings.TrimSpace`/`unicode.IsSpace` (ASCII subset). -/
def isSpaceChar (c : Char) : Bool :=
  c == ' ' || c == '\n' || c == '\t' || c == '\r'

/-- Model of `strings.TrimSpace`. -/
def trimChars (cs : Str) : Str :=
  ((cs.dropWhile isSpaceChar).reverse.dropWhile isSpaceChar).reverse

/-- Opaque unique chunk ids: `uuid.New()` modelled by a counter supply
threaded through the chunker. -/
def mkId (n : Nat) : String := "chunk-" ++ toString n

/-- The word-boundary retreat of `createFixedSizeChunks`: from position `i`
downwards while `i > start+fixedSize-50 && i > start`, return the first
position holding a space.  (`start+fixedSize-50` is Go `int` arithmetic, so
the comparison is over `Int`.) -/
def findBoundary (content : Str) (startPos fixedSize : Nat) : Nat → Option Nat
  | 0 => none
  | i + 1 =>
    if ((i + 1 : Int) > (startPos : Int) + (fixedSize : Int) - 50) ∧ i + 1 > startPos then
      if isSpaceChar (content.getD (i + 1) ' ') then some (i + 1)
      else findBoundary content startPos fixedSize i
    else none

/-- The sliding-window loop of `createFixedSizeChunks`.  `idx` is the running
`chunkIndex` (Go `int`), `gen` the id supply.  `kw` is the keyword extractor
(a parameter because its tie order depends on Go map iteration, see
`extractKeywords`); fuel `≥ content.length + 1` suffices. -/
def fixedLoop (content : Str) (docID : String) (cfg : ChunkingConfig)
    (kw : Str → List Str) :
    Nat → Nat → Int → Nat → List EnhancedChunk × Nat
  | 0, _, _, gen => ([], gen)
  | fuel + 1, start, idx, gen =>
    if start < content.length then
      let stop0 := min (start + cfg.fixedSize) content.length
      let stop :=
        if stop0 < content.length ∧ ¬ isSpaceChar (content.getD stop0 ' ') then
          (findBoundary content start cfg.fixedSize stop0).getD stop0
        else stop0
      let txt := trimChars ((content.drop start).take (stop - start))
      let start' := stop - cfg.overlap
      if txt.isEmpty then
        if stop ≤ start' then ([], gen)
        else fixedLoop content docID cfg kw fuel start' idx gen
      else
        let c : EnhancedChunk :=
          { id := mkId gen, documentID := docID, text := txt,
            chunkType := "fixed_size", sectionTag := "document".data,
            startPos := (start : Int), endPos := (stop : Int),
            chunkIndex := idx,
            keywords := if cfg.extractKeywords then kw txt else [] }
        if stop ≤ start' then ([c], gen + 1)
        else
          let r := fixedLoop content docID cfg kw fuel start' (idx + 1) (gen + 1)
          (c :: r.1, r.2)
    else ([], gen)

/-- Model of `createFixedSizeChunks`: content no longer than `fixedSize`
becomes a single chunk of index 0; otherwise the sliding-window loop runs
(its `chunkIndex` restarts at 0 for every call). -/
def createFixedSizeChunks (content : Str) (docID : String)
    (cfg : ChunkingConfig) (kw : Str → List Str) (gen : Nat) :
    List EnhancedChunk × Nat :=
  if content.length ≤ cfg.fixedSize then
    ([{ id := mkId gen, documentID := docID, text := trimChars content,
        chunkType := "fixed_size", sectionTag := "document".data,
        startPos := 0, endPos := (content.length : Int), chunkIndex := 0,
        keywords := if cfg.extractKeywords then kw (trimChars content) else [] }],
      gen + 1)
  else fixedLoop content docID cfg kw (content.length + 1) 0 0 gen

/-- The paragraph-boundary retreat of `createParentDocumentChunks`: from `i`
downwards while `i > start+parentSize-200 && i > start`, the first position
where `content[i:i+2] == "\n\n"` (out-of-range positions read as a non-`\n`
filler, where Go would panic on the slice). -/
def findParaBoundary (content : Str) (startPos parentSize : Nat) :
    Nat → Option Nat
  | 0 => none
  | i + 1 =>
    if ((i + 1 : Int) > (startPos : Int) + (parentSize : Int) - 200) ∧ i + 1 > startPos then
      if content.getD (i + 1) 'x' = '\n' ∧ content.getD (i + 2) 'x' = '\n' then
        some (i + 1)
      else findParaBoundary content startPos parentSize i
    else none

/-- The parent-creation loop of `createParentDocumentChunks`: carve parents
of size `2 × maxChunkSize` (retreating to a blank-line boundary), give each
parent the running `parentIndex` as its `chunkIndex`, and chunk each parent's
text into children via `createFixedSizeChunks` with `fixedSize :=
minChunkSize` and `overlap := overlap / 2` — whose `chunkIndex` numbering
restarts at 0 for every parent.  Returns (parents, children, id supply). -/
def parentLoop (content : Str) (docID : String) (cfg : ChunkingConfig)
    (kw : Str → List Str) :
    Nat → Nat → Nat → Nat → List EnhancedChunk × List EnhancedChunk × Nat
  | 0, _, _, gen => ([], [], gen)
  | fuel + 1, start, parentIndex, gen =>
    if start < content.length then
      let parentSize := cfg.maxChunkSize * 2
      let stop0 := min (start + parentSize) content.length
      let stop :=
        if stop0 < content.length then
          (findParaBoundary content start parentSize stop0).getD stop0
        else stop0
      let ptext := trimChars ((content.drop start).take (stop - start))
      if ptext.isEmpty then
        parentLoop content docID cfg kw fuel stop parentIndex gen
      else
        let pid := mkId gen
        let psec := ("section_" ++ toString (parentIndex + 1)).data
        let c0 := createFixedSizeChunks ptext docID
          { strategy := "fixed_size", fixedSize := cfg.minChunkSize,
            overlap := cfg.overlap / 2, extractKeywords := cfg.extractKeywords }
          kw (gen + 1)
        let children := c0.1.map (fun c =>
          { c with parentChunkID := some pid, sectionTag := psec,
                   chunkType := "child" })
        let parent : EnhancedChunk :=
          { id := pid, documentID := docID, text := ptext,
            chunkType := "parent", sectionTag := psec,
            startPos := (start : Int), endPos := (stop : Int),
            chunkIndex := (parentIndex : Int),
            keywords := if cfg.extractKeywords then kw ptext else [],
            childChunkIDs := children.map (fun c => c.id) }
        let r := parentLoop content docID cfg kw fuel stop (parentIndex + 1) c0.2
        (parent :: r.1, children ++ r.2.1, r.2.2)
    else ([], [], gen)

/-- Model of `createParentDocumentChunks`: the returned ordered list places
all parents first, then all children. -/
def createParentDocumentChunks (content : Str) (docID : String)
    (cfg : ChunkingConfig) (kw : Str → List Str) (gen : Nat) :
    List EnhancedChunk × Nat :=
  let r := parentLoop content docID cfg kw (content.length + 1) 0 0 gen
  (r.1 ++ r.2.1, r.2.2)

/-- Grouping key of `addParentChildRelationships` ("" → "document"). -/
def sectionKeyOf (c : EnhancedChunk) : Str :=
  if c.sectionTag.isEmpty then "document".data else c.sectionTag

/-- The distinct keys in first-appearance order (a Go map enumerates them in
an unspecified order; the claims proved below are invariant under the group
order, so one admissible order is fixed here). -/
def firstKeys : List Str → List Str
  | [] => []
  | k :: ks => k :: (firstKeys ks).filter (fun k2 => k2 ≠ k)

/-- Concatenation with a separator (the `combinedText` construction). -/
def joinSep (sep : Str) : List Str → Str
  | [] => []
  | [x] => x
  | x :: xs => x ++ sep ++ joinSep sep xs

/-- Model of `addParentChildRelationships`: per section group of more than 2
chunks, synthesize a `parent` chunk whose `chunkIndex` is *copied from the
group's first chunk*, re-point the group members' `parentChunkID` to it, and
emit the parent before the group. -/
def addParentChildRelationships (chunks : List EnhancedChunk) (gen : Nat) :
    List EnhancedChunk × Nat :=
  (firstKeys (chunks.map sectionKeyOf)).foldl
    (fun (acc : List EnhancedChunk × Nat) key =>
      let group := chunks.filter (fun c => sectionKeyOf c = key)
      match group with
      | [] => acc
      | c0 :: _ =>
        if group.length > 2 then
          let pid := mkId acc.2
          let parent : EnhancedChunk :=
            { id := pid, documentID := c0.documentID,
              text := joinSep "\n\n".data (group.map (fun c => c.text)),
              sectionTag := key, chunkType := "parent",
              childChunkIDs := group.map (fun c => c.id),
              chunkIndex := c0.chunkIndex }
          (acc.1 ++ parent :: group.map (fun c => { c with parentChunkID := some pid }),
            acc.2 + 1)
        else (acc.1 ++ group, acc.2))
    ([], gen)

end Chunker

/-! ## Claim C5: chunk_index distinctness fails under ParentDocument -/

def cexContent : Str := "The quick brown fox jumps over the lazy dog".data

/-- The resolved config the adaptive strategy uses for large documents
(`MaxChunkSize = 1200`, `MinChunkSize = 400`, 15% overlap of the preferred
size, keywords on). -/
def cexCfg : ChunkingConfig :=
  { maxChunkSize := 1200, minChunkSize := 400, overlap := 120,
    extractKeywords := true }

/-- **C5 counterexample.**  Under the ParentDocument strategy the parent
chunks take indices 0,1,… and every parent's children take indices 0,1,…
again (`createFixedSizeChunks` restarts its `chunkIndex` at 0), so a parent
and its first child always share `chunk_index` — the values are not pairwise
distinct. -/
theorem createParentDocumentChunks_dup_index_cex :
    ((createParentDocumentChunks cexContent "doc1" cexCfg extractKeywords 0).1).length = 2
    ∧ ((createParentDocumentChunks cexContent "doc1" cexCfg extractKeywords 0).1).map
        (fun c => c.chunkIndex) = [0, 0]
    ∧ ((createParentDocumentChunks cexContent "doc1" cexCfg extractKeywords 0).1).map
        (fun c => c.chunkType) = ["parent", "child"]
    ∧ ¬ (((createParentDocumentChunks cexContent "doc1" cexCfg extractKeywords 0).1).map
        (fun c => c.chunkIndex)).Nodup := by
  refine ⟨by decide, by decide, by decide, by decide⟩

theorem fixedLoop_index_nonneg (content : Str) (docID : String)
    (cfg : ChunkingConfig) (kw : Str → List Str) :
    ∀ (fuel start : Nat) (idx : Int) (gen : Nat), 0 ≤ idx →
      ∀ c ∈ (fixedLoop content docID cfg kw fuel start idx gen).1,
        0 ≤ c.chunkIndex := by
  intro fuel
  induction fuel with
  | zero => intro start idx gen hidx c hc; simp [fixedLoop] at hc
  | succ fuel ih =>
    intro start idx gen hidx c hc
    unfold fixedLoop at hc
    simp only [] at hc
    split_ifs at hc <;>
      first
        | exact absurd hc (List.not_mem_nil c)
        | exact ih _ _ _ hidx c hc
        | (rcases List.mem_cons.mp hc with hceq | hc'
           · subst hceq; exact hidx
           · exact absurd hc' (List.not_mem_nil c))
        | (rcases List.mem_cons.mp hc with hceq | hc'
           · subst hceq; exact hidx
           · exact ih _ _ _ (by omega) c hc')

theorem createFixedSizeChunks_index_nonneg (content : Str) (docID : String)
    (cfg : ChunkingConfig) (kw : Str → List Str) (gen : Nat) :
    ∀ c ∈ (createFixedSizeChunks content docID cfg kw gen).1,
      0 ≤ c.chunkIndex := by
  intro c hc
  unfold createFixedSizeChunks at hc
  split_ifs at hc <;>
    first
      | (rcases List.mem_cons.mp hc with hceq | hc'
         · subst hceq; exact le_refl 0
         · exact absurd hc' (List.not_mem_nil c))
      | exact fixedLoop_index_nonneg content docID cfg kw _ _ _ _ (le_refl 0) c hc

set_option maxHeartbeats 2000000 in
theorem parentLoop_index_nonneg (content : Str) (docID : String)
    (cfg : ChunkingConfig) (kw : Str → List Str) :
    ∀ (fuel start parentIndex gen : Nat),
      (∀ c ∈ (parentLoop content docID cfg kw fuel start parentIndex gen).1,
        0 ≤ c.chunkIndex)
      ∧ (∀ c ∈ (parentLoop content docID cfg kw fuel start parentIndex gen).2.1,
        0 ≤ c.chunkIndex) := by
  intro fuel
  induction fuel with
  | zero =>
    intro start parentIndex gen
    constructor <;> intro c hc <;> simp [parentLoop] at hc
  | succ fuel ih =>
    intro start parentIndex gen
    constructor <;> intro c hc <;> unfold parentLoop at hc <;>
      simp only [] at hc <;>
      split_ifs at hc <;>
      first
        | exact absurd hc (List.not_mem_nil c)
        | exact (ih _ _ _).1 c hc
        | exact (ih _ _ _).2 c hc
        | (rcases List.mem_cons.mp hc with hceq | hc'
           · subst hceq; exact Int.natCast_nonneg _
           · exact (ih _ _ _).1 c hc')
        | (rcases List.mem_append.mp hc with hcl | hcr
           · obtain ⟨c', hc', hceq⟩ := List.mem_map.mp hcl
             subst hceq
             exact createFixedSizeChunks_index_nonneg _ _ _ _ _ c' hc'
           · exact (ih _ _ _).2 c hcr)

theorem addParentChildRelationships_step_nonneg
    (chunks : List EnhancedChunk)
    (hch : ∀ c ∈ chunks, 0 ≤ c.chunkIndex) :
    ∀ (keys : List Str) (acc : List EnhancedChunk × Nat),
      (∀ c ∈ acc.1, 0 ≤ c.chunkIndex) →
      ∀ c ∈ (keys.foldl
        (fun (acc : List EnhancedChunk × Nat) key =>
          let group := chunks.filter (fun c => sectionKeyOf c = key)
          match group with
          | [] => acc
          | c0 :: _ =>
            if group.length > 2 then
              let pid := mkId acc.2
              let parent : EnhancedChunk :=
                { id := pid, documentID := c0.documentID,
                  text := joinSep "\n\n".data (group.map (fun c => c.text)),
                  sectionTag := key, chunkType := "parent",
                  childChunkIDs := group.map (fun c => c.id),
                  chunkIndex := c0.chunkIndex }
              (acc.1 ++ parent :: group.map (fun c => { c with parentChunkID := some pid }),
                acc.2 + 1)
            else (acc.1 ++ group, acc.2)) acc).1,
        0 ≤ c.chunkIndex := by
  intro keys
  induction keys with
  | nil => intro acc hacc c hc; exact hacc c hc
  | cons key keys ih =>
    intro acc hacc c hc
    rw [List.foldl_cons] at hc
    refine ih _ ?_ c hc
    intro d hd
    simp only [] at hd
    have hgroup : ∀ d ∈ chunks.filter (fun c => sectionKeyOf c = key),
        0 ≤ d.chunkIndex := fun d hdm => hch d (List.mem_of_mem_filter hdm)
    cases hmatch : chunks.filter (fun c => sectionKeyOf c = key) with
    | nil =>
      rw [hmatch] at hd
      exact hacc d hd
    | cons c0 rest =>
      rw [hmatch] at hd
      split_ifs at hd with hlen
      · rcases List.mem_append.mp hd with hdl | hdr
        · exact hacc d hdl
        · rcases List.mem_cons.mp hdr with hdeq | hdm
          · subst hdeq
            exact hgroup c0 (hmatch ▸ List.mem_cons_self c0 rest)
          · obtain ⟨d', hd', hdeq⟩ := List.mem_map.mp hdm
            subst hdeq
            exact hgroup d' (hmatch ▸ hd')
      · rcases List.mem_append.mp hd with hdl | hdr
        · exact hacc d hdl
        · exact hgroup d (hmatch ▸ hdr)

/-- **C5 (amended).** Chunk indices produced by the ParentDocument strategy
and by the parent-synthesis post-processing pass are all non-negative — but
they are *not* pairwise distinct within a document: parents are numbered
0,1,… while every parent's children restart at 0 (see the counterexample),
and a synthesized parent copies its first group member's index. -/
theorem chunker_chunkIndex_nonneg :
    (∀ (content : Str) (docID : String) (cfg : ChunkingConfig)
        (kw : Str → List Str) (gen : Nat),
      ∀ c ∈ (createParentDocumentChunks content docID cfg kw gen).1,
        0 ≤ c.chunkIndex)
    ∧ (∀ (chunks : List EnhancedChunk) (gen : Nat),
        (∀ c ∈ chunks, 0 ≤ c.chunkIndex) →
        ∀ c ∈ (addParentChildRelationships chunks gen).1, 0 ≤ c.chunkIndex) := by
  constructor
  · intro content docID cfg kw gen c hc
    unfold createParentDocumentChunks at hc
    rcases List.mem_append.mp hc with hcl | hcr
    · exact (parentLoop_index_nonneg content docID cfg kw _ _ _ _).1 c hcl
    · exact (parentLoop_index_nonneg content docID cfg kw _ _ _ _).2 c hcr
  · intro chunks gen hch c hc
    exact addParentChildRelationships_step_nonneg chunks hch _ _
      (fun d hd => absurd hd (List.not_mem_nil d)) c hc

/-- Witness for the amended C5 at concrete inputs (the counterexample
document for the first part; a one-chunk store for the second). -/
theorem chunker_chunkIndex_nonneg_witness :
    ((0 : Int) ≤
      (((createParentDocumentChunks cexContent "doc1" cexCfg extractKeywords 0).1).headD
        {}).chunkIndex)
    ∧ ((∀ c ∈ [({ chunkIndex := 3 } : EnhancedChunk)], 0 ≤ c.chunkIndex)
        ∧ (0 : Int) ≤
          (((addParentChildRelationships [({ chunkIndex := 3 } : EnhancedChunk)] 5).1).headD
            {}).chunkIndex) :=
  ⟨chunker_chunkIndex_nonneg.1 cexContent "doc1" cexCfg extractKeywords 0 _ (by decide),
   by decide,
   chunker_chunkIndex_nonneg.2 [{ chunkIndex := 3 }] 5 (by decide) _ (by decide)⟩

/-! ## Vector store (src/core/vector_db.go)

The SQLite database is modelled as explicit state: the `documents` and
`enhanced_chunks` tables as row lists (their `id` columns are primary keys),
and the lazily created `chunk_embeddings` vec0 virtual table as an optional
pair of its dimension and its `(chunk_id, vector)` rows.  The vec0 distance
function is an explicit parameter. -/

section VectorStore

/-- `models.Document` (the fields `AddDocument` reads; the metadata map is
represented by its only read key, `chunking_strategy`). -/
structure Document where
  id : String := ""
  content : Str := []
  chunks : List EnhancedChunk := []
  source : String := ""
  docType : String := ""
  metadataChunkingStrategy : Option String := none
  deriving Repr, DecidableEq

/-- A row of the `documents` table. -/
structure DocRow where
  id : String := ""
  collectionName : String := ""
  content : Str := []
  source : String := ""
  docType : String := ""
  chunkCount : Nat := 0
  chunkingStrategy : String := ""
  deriving Repr, DecidableEq

/-- A row of `enhanced_chunks`: the chunk's columns plus the collection.
The in-memory `Embedding` field is not a column and is stripped on insert. -/
structure ChunkRow where
  collectionName : String := ""
  chunk : EnhancedChunk := {}
  deriving Repr, DecidableEq

/-- The database state. -/
structure Store where
  collections : List (String × String) := []
  documents : List DocRow := []
  chunks : List ChunkRow := []
  embTable : Option (Nat × List (String × Vec)) := none
  deriving Repr, DecidableEq

/-- The row `insertEnhancedChunk` writes. -/
def mkChunkRow (collectionName : String) (c : EnhancedChunk) : ChunkRow :=
  { collectionName := collectionName, chunk := { c with embedding := [] } }

/-- Model of `insertEnhancedChunk`: `INSERT OR REPLACE` keyed on the chunk id
primary key. -/
def insertEnhancedChunk (collectionName : String) (c : EnhancedChunk)
    (rows : List ChunkRow) : List ChunkRow :=
  rows.filter (fun r => r.chunk.id ≠ c.id) ++ [mkChunkRow collectionName c]

/-- Model of `AddDocument`: `INSERT OR REPLACE` of the document row, then
`insertEnhancedChunk` for each chunk, in one committed transaction.  Note:
nothing deletes pre-existing chunk rows of the same `document_id`. -/
def AddDocument (st : Store) (collectionName : String) (doc : Document) :
    Store :=
  let chunkingStrategy :=
    if doc.chunks.length > 0 then doc.metadataChunkingStrategy.getD "" else ""
  let docRow : DocRow :=
    { id := doc.id, collectionName := collectionName, content := doc.content,
      source := doc.source, docType := doc.docType,
      chunkCount := doc.chunks.length, chunkingStrategy := chunkingStrategy }
  { st with
    documents := st.documents.filter (fun d => d.id ≠ doc.id) ++ [docRow],
    chunks := doc.chunks.foldl
      (fun rows c => insertEnhancedChunk collectionName c rows) st.chunks }

/-- Model of `ensureEmbeddingTableExists`: create the table at `dimension`
when absent; when present, probe-insert a zero vector of length `dimension` —
on the vec0 "Dimension mismatch" (table dimension differs) drop and recreate
the table *empty*, otherwise delete the probe row again (which also deletes
any real row stored under the probe key). -/
def ensureEmbeddingTableExists (table : Option (Nat × List (String × Vec)))
    (dimension : Nat) : Nat × List (String × Vec) :=
  match table with
  | none => (dimension, [])
  | some (d, rows) =>
    if d ≠ dimension then (dimension, [])
    else (d, rows.filter (fun r => r.1 ≠ "test_dimension_check"))

/-- The per-chunk insert loop of `AddEmbeddings` inside its transaction:
skip empty embeddings, reject a length differing from the discovered
dimension, otherwise `INSERT OR REPLACE` by chunk id. -/
def insertEmbRows (rows : List (String × Vec)) (dim : Nat) :
    List EnhancedChunk → Except String (List (String × Vec))
  | [] => .ok rows
  | c :: cs =>
    if c.embedding.length = 0 then insertEmbRows rows dim cs
    else if c.embedding.length ≠ dim then
      .error "chunk has mismatched embedding dimension"
    else insertEmbRows (rows.filter (fun r => r.1 ≠ c.id) ++ [(c.id, c.embedding)]) dim cs

/-- Model of `AddEmbeddings`: discover the dimension from the first chunk
with a non-empty embedding, ensure the table (outside the transaction), then
insert all embeddings transactionally, rolling the inserts back on a
mismatch.  Returns the post-call store and the error, if any. -/
def AddEmbeddings (st : Store) (chunks : List EnhancedChunk) :
    Store × Option String :=
  if chunks.isEmpty then (st, none)
  else
    match chunks.find? (fun c => c.embedding.length > 0) with
    | none => (st, some "no valid embeddings found in chunks")
    | some c0 =>
      let dim := c0.embedding.length
      let table := ensureEmbeddingTableExists st.embTable dim
      let st1 := { st with embTable := some table }
      match insertEmbRows table.2 dim chunks with
      | .error e => (st1, some e)
      | .ok rows => ({ st1 with embTable := some (table.1, rows) }, none)

/-- The vec0 distance function (L2 in sqlite-vec), as a parameter. -/
abbrev DistFn := Vec → Vec → ℚ

/-- The embedding-table rows (empty when the table was never created; the
real query would error in that case, which no claim depends on). -/
def embRowsOf (st : Store) : List (String × Vec) :=
  match st.embTable with
  | none => []
  | some (_, rows) => rows

/-- Ascending-distance comparator for the vec0 KNN answer. -/
def byDistAsc (a b : String × Vec × ℚ) : Bool := decide (a.2.2 ≤ b.2.2)

/-- The vec0 virtual table's answer to `embedding MATCH ? AND k = ?`: the
`k` nearest rows of the *whole* embedding table, by ascending distance. -/
def knnRows (dist : DistFn) (q : Vec) (k : Nat) (rows : List (String × Vec)) :
    List (String × Vec × ℚ) :=
  (insertionSortBy byDistAsc (rows.map (fun r => (r.1, r.2, dist q r.2)))).take k

/-- The metadata-filter conditions of the WHERE clause, applied to a chunk
row: the three known keys compare for equality (doc_type via the documents
table), unknown keys add no condition. -/
def chunkFilterPred (st : Store) (filters : List (String × String))
    (c : EnhancedChunk) : Bool :=
  filters.all (fun kv =>
    if kv.1 = "chunk_type" then c.chunkType == kv.2
    else if kv.1 = "section" then c.sectionTag == kv.2.data
    else if kv.1 = "doc_type" then
      st.documents.any (fun d => d.id == c.documentID && d.docType == kv.2)
    else true)

/-- The joined, filtered, distance-ordered rows of `QuerySimilarChunks`:
sqlite-vec answers the KNN part (`MATCH`/`k`) from the embedding table
alone; SQLite then joins each of those k rows to its chunk row and applies
the remaining WHERE conditions (collection, metadata filters) — i.e. the
filters are applied *after* the k cut-off. -/
def joinRow (st : Store) (collectionName : String)
    (filters : List (String × String)) (r : String × Vec × ℚ) :
    Option (EnhancedChunk × ℚ) :=
  match st.chunks.find? (fun row => row.chunk.id == r.1) with
  | none => none
  | some row =>
    if row.collectionName == collectionName
        ∧ chunkFilterPred st filters row.chunk then
      some (row.chunk, r.2.2)
    else none

def queryRows (dist : DistFn) (st : Store) (collectionName : String) (q : Vec)
    (k : Nat) (filters : List (String × String)) : List (EnhancedChunk × ℚ) :=
  (knnRows dist q k (embRowsOf st)).filterMap (joinRow st collectionName filters)

/-- Model of `QuerySimilarChunks`: the hydrated chunks and their
`1 − distance` similarity scores, in the query's `ORDER BY distance`. -/
def QuerySimilarChunks (dist : DistFn) (st : Store) (collectionName : String)
    (q : Vec) (k : Nat) (filters : List (String × String)) :
    List EnhancedChunk × List ℚ :=
  ((queryRows dist st collectionName q k filters).map Prod.fst,
   (queryRows dist st collectionName q k filters).map (fun r => 1 - r.2))

end VectorStore

/-! ## Claim C2: kNN result shape, scores, ordering -/

theorem byDistAsc_trans : ∀ x y z : String × Vec × ℚ,
    byDistAsc x y = true → byDistAsc y z = true → byDistAsc x z = true := by
  intro x y z hxy hyz
  simp only [byDistAsc, decide_eq_true_eq] at *
  exact le_trans hxy hyz

theorem byDistAsc_total : ∀ x y : String × Vec × ℚ,
    byDistAsc x y = true ∨ byDistAsc y x = true := by
  intro x y
  simp only [byDistAsc, decide_eq_true_eq]
  exact le_total _ _

/-- If the join emits a result row, its score component is the KNN row's
distance. -/
theorem joinRow_snd (st : Store) (collectionName : String)
    (filters : List (String × String)) (r : String × Vec × ℚ)
    (p : EnhancedChunk × ℚ) (h : joinRow st collectionName filters r = some p) :
    p.2 = r.2.2 := by
  unfold joinRow at h
  cases hfind : st.chunks.find? (fun row => row.chunk.id == r.1) with
  | none => rw [hfind] at h; simp at h
  | some row =>
    rw [hfind] at h
    dsimp only at h
    split_ifs at h
    injection h with h
    rw [← h]

/-- If the join emits a result row, its chunk's id is the KNN row's
chunk id. -/
theorem joinRow_id (st : Store) (collectionName : String)
    (filters : List (String × String)) (r : String × Vec × ℚ)
    (p : EnhancedChunk × ℚ) (h : joinRow st collectionName filters r = some p) :
    p.1.id = r.1 := by
  unfold joinRow at h
  cases hfind : st.chunks.find? (fun row => row.chunk.id == r.1) with
  | none => rw [hfind] at h; simp at h
  | some row =>
    rw [hfind] at h
    dsimp only at h
    split_ifs at h
    injection h with h
    have := List.find?_some hfind
    simp only [beq_iff_eq] at this
    rw [← h]
    exact this

/-- Every KNN answer row arises from a stored embedding row, with the
distance computed from it. -/
theorem knnRows_mem (dist : DistFn) (q : Vec) (k : Nat)
    (rows : List (String × Vec)) (r : String × Vec × ℚ)
    (hr : r ∈ knnRows dist q k rows) :
    ∃ e ∈ rows, r = (e.1, e.2, dist q e.2) := by
  have h1 : r ∈ insertionSortBy byDistAsc
      (rows.map (fun e => (e.1, e.2, dist q e.2))) := List.mem_of_mem_take hr
  have h2 : r ∈ rows.map (fun e => (e.1, e.2, dist q e.2)) :=
    (insertionSortBy_perm byDistAsc _).mem_iff.mp h1
  obtain ⟨e, he, heq⟩ := List.mem_map.mp h2
  exact ⟨e, he, heq.symm⟩

/-- **C2.** `QuerySimilarChunks` returns at most `k` chunks with as many
scores; the score at each position is `1 −` the stored distance of that
chunk (the distance from the query vector to that chunk's stored embedding
row); and the scores are ordered non-increasingly (equivalently, the
underlying distances non-decreasingly). -/
theorem querySimilarChunks_spec (dist : DistFn) (st : Store)
    (collectionName : String) (q : Vec) (k : Nat)
    (filters : List (String × String)) :
    (QuerySimilarChunks dist st collectionName q k filters).1.length ≤ k
    ∧ (QuerySimilarChunks dist st collectionName q k filters).2.length
        = (QuerySimilarChunks dist st collectionName q k filters).1.length
    ∧ (∀ i c,
        (QuerySimilarChunks dist st collectionName q k filters).1.get? i = some c →
        ∃ v, (c.id, v) ∈ embRowsOf st ∧
          (QuerySimilarChunks dist st collectionName q k filters).2.get? i
            = some (1 - dist q v))
    ∧ (QuerySimilarChunks dist st collectionName q k filters).2.Pairwise
        (fun a b => b ≤ a) := by
  refine ⟨?_, ?_, ?_, ?_⟩
  · calc (QuerySimilarChunks dist st collectionName q k filters).1.length
        = (queryRows dist st collectionName q k filters).length := by
          simp [QuerySimilarChunks]
      _ ≤ (knnRows dist q k (embRowsOf st)).length :=
          List.length_filterMap_le _ _
      _ ≤ k := by simp [knnRows, List.length_take]
  · simp [QuerySimilarChunks]
  · intro i c hc
    simp only [QuerySimilarChunks, List.get?_map] at hc ⊢
    cases hrow : (queryRows dist st collectionName q k filters).get? i with
    | none => rw [hrow] at hc; simp at hc
    | some p =>
      rw [hrow] at hc
      simp only [Option.map_some'] at hc
      injection hc with hc
      have hpmem : p ∈ queryRows dist st collectionName q k filters :=
        List.get?_mem hrow
      unfold queryRows at hpmem
      obtain ⟨r, hrknn, hjoin⟩ := List.mem_filterMap.mp hpmem
      obtain ⟨e, he, heq⟩ := knnRows_mem dist q k _ r hrknn
      refine ⟨e.2, ?_, ?_⟩
      · have hid : p.1.id = r.1 := joinRow_id _ _ _ _ _ hjoin
        have : r.1 = e.1 := by rw [heq]
        rw [hc] at hid
        rw [hid, this]
        exact he
      · have hsnd : p.2 = r.2.2 := joinRow_snd _ _ _ _ _ hjoin
        have h22 : r.2.2 = dist q e.2 := by rw [heq]
        simp only [Option.map_some']
        rw [hsnd, h22]
  · have h1 : (insertionSortBy byDistAsc
        ((embRowsOf st).map (fun e => (e.1, e.2, dist q e.2)))).Pairwise
        (fun x y => byDistAsc x y = true) :=
      insertionSortBy_pairwise byDistAsc byDistAsc_trans byDistAsc_total _
    have h2 : (knnRows dist q k (embRowsOf st)).Pairwise
        (fun x y => byDistAsc x y = true) :=
      h1.sublist (List.take_sublist _ _)
    have h3 : (queryRows dist st collectionName q k filters).Pairwise
        (fun p p' => p.2 ≤ p'.2) := by
      refine List.Pairwise.filterMap _ ?_ h2
      intro r r' hrr' p hp p' hp'
      have e1 : p.2 = r.2.2 := joinRow_snd _ _ _ _ _ hp
      have e2 : p'.2 = r'.2.2 := joinRow_snd _ _ _ _ _ hp'
      rw [e1, e2]
      simpa [byDistAsc] using hrr'
    simp only [QuerySimilarChunks]
    rw [List.pairwise_map]
    refine h3.imp ?_
    intro p p' h
    exact sub_le_sub_left h 1

/-! ## Claim C3: metadata filters and the k cut-off -/

/-- 1-dimensional L2 distance (what sqlite-vec computes for 1-dim vectors),
written without `abs` so concrete instances evaluate by `norm_num`. -/
def dist1 : DistFn := fun u v =>
  if u.headD 0 - v.headD 0 < 0 then v.headD 0 - u.headD 0
  else u.headD 0 - v.headD 0

/-- A store with three embedded chunks in collection "col": two of
`chunk_type = "section"` (at distances 10 and 20 from the query point 0) and
one `"section_part"` (at distance 0, i.e. nearest). -/
def cexStore : Store :=
  { collections := [("col", "")],
    documents := [{ id := "d", collectionName := "col", docType := "resume" }],
    chunks := [
      { collectionName := "col",
        chunk := { id := "c1", documentID := "d", chunkType := "section" } },
      { collectionName := "col",
        chunk := { id := "c2", documentID := "d", chunkType := "section" } },
      { collectionName := "col",
        chunk := { id := "c3", documentID := "d", chunkType := "section_part" } }],
    embTable := some (1, [("c1", [10]), ("c2", [20]), ("c3", [0])]) }

/-- Witness for C2 at the concrete store: the nearest chunk (distance 0) is
returned first, and its score is `1 −` its stored distance. -/
theorem querySimilarChunks_spec_witness :
    ((QuerySimilarChunks dist1 cexStore "col" [0] 2 []).1.get? 0
        = some { id := "c3", documentID := "d", chunkType := "section_part" })
    ∧ ∃ v, (("c3" : String), v) ∈ embRowsOf cexStore ∧
        (QuerySimilarChunks dist1 cexStore "col" [0] 2 []).2.get? 0
          = some (1 - dist1 [0] v) := by
  have hrows : queryRows dist1 cexStore "col" [0] 2 []
      = [({ id := "c3", documentID := "d", chunkType := "section_part" }, 0),
         ({ id := "c1", documentID := "d", chunkType := "section" }, 10)] := by
    norm_num [queryRows, knnRows, insertionSortBy, insertLe, byDistAsc,
      embRowsOf, cexStore, dist1]
    decide
  have h0 : (QuerySimilarChunks dist1 cexStore "col" [0] 2 []).1.get? 0
      = some { id := "c3", documentID := "d", chunkType := "section_part" } := by
    simp [QuerySimilarChunks, hrows]
  exact ⟨h0,
    (querySimilarChunks_spec dist1 cexStore "col" [0] 2 []).2.2.1 0 _ h0⟩

/-- **C3 counterexample.**  The store holds `k = 2` embedded chunks
satisfying the filter `chunk_type = "section"`, yet the filtered query with
limit 2 returns only **1** chunk: vec0 answers the KNN with the 2 nearest
chunks overall (which include the `"section_part"` chunk), and the filters
are applied only afterwards.  Filtering is applied *after* the k cut-off,
not before. -/
theorem queryFilters_after_cutoff_cex :
    ((cexStore.chunks.filter (fun r =>
        chunkFilterPred cexStore [("chunk_type", "section")] r.chunk
        && r.collectionName == "col"
        && (embRowsOf cexStore).any (fun e => e.1 == r.chunk.id))).length = 2)
    ∧ ((QuerySimilarChunks dist1 cexStore "col" [0] 2
          [("chunk_type", "section")]).1.length = 1) := by
  constructor
  · decide
  · norm_num [QuerySimilarChunks, queryRows, knnRows, insertionSortBy,
      insertLe, byDistAsc, embRowsOf, cexStore, dist1]
    decide

/-- `joinRow` with filters = `joinRow` unfiltered post-composed with the
chunk-level predicate. -/
theorem joinRow_filters (st : Store) (collectionName : String)
    (filters : List (String × String)) (r : String × Vec × ℚ) :
    joinRow st collectionName filters r
      = match joinRow st collectionName [] r with
        | none => none
        | some p => if chunkFilterPred st filters p.1 then some p else none := by
  unfold joinRow
  cases hfind : st.chunks.find? (fun row => row.chunk.id == r.1) with
  | none => rfl
  | some row =>
    dsimp only
    have hnil : chunkFilterPred st [] row.chunk = true := rfl
    by_cases hcoll : (row.collectionName == collectionName) = true
    · by_cases hpred : chunkFilterPred st filters row.chunk = true
      · rw [if_pos ⟨hcoll, hpred⟩, if_pos ⟨hcoll, hnil⟩]
        dsimp only
        rw [if_pos hpred]
      · rw [if_neg (fun hc => hpred hc.2), if_pos ⟨hcoll, hnil⟩]
        dsimp only
        rw [if_neg hpred]
    · rw [if_neg (fun hc => hcoll hc.1), if_neg (fun hc => hcoll hc.1)]

/-- The join-filter fusion behind the amended C3. -/
theorem filterMap_joinRow_filter (st : Store) (collectionName : String)
    (filters : List (String × String)) :
    ∀ l : List (String × Vec × ℚ),
      l.filterMap (joinRow st collectionName filters)
        = (l.filterMap (joinRow st collectionName [])).filter
            (fun r => chunkFilterPred st filters r.1) := by
  intro l
  induction l with
  | nil => rfl
  | cons r l ih =>
    rw [List.filterMap_cons, List.filterMap_cons,
      joinRow_filters st collectionName filters r]
    cases hj : joinRow st collectionName [] r with
    | none => exact ih
    | some p =>
      dsimp only
      by_cases hp : chunkFilterPred st filters p.1 = true
      · rw [if_pos hp, List.filter_cons, ih]
        simp [hp]
      · rw [if_neg hp, List.filter_cons, ih]
        simp [hp]

/-- **C3 (amended).**  The three known filter keys compose with logical AND
and unknown filter keys are silently ignored — but the filters are applied
*after* the k cut-off: a filtered query equals the unfiltered k-nearest
query post-filtered by the chunk predicate, so fewer than k chunks can come
back even when k matching chunks exist (see the counterexample; the spec's
own 5-of-10, top_k=10 scenario still holds because there the cut-off
retains the whole store). -/
theorem queryFilters_and_after_cutoff :
    (∀ (dist : DistFn) (st : Store) (collectionName : String) (q : Vec)
        (k : Nat) (filters : List (String × String)) (key v : String),
        key ∉ (["chunk_type", "section", "doc_type"] : List String) →
        QuerySimilarChunks dist st collectionName q k ((key, v) :: filters)
          = QuerySimilarChunks dist st collectionName q k filters)
    ∧ (∀ (dist : DistFn) (st : Store) (collectionName : String) (q : Vec)
        (k : Nat) (filters : List (String × String)),
        queryRows dist st collectionName q k filters
          = (queryRows dist st collectionName q k []).filter
              (fun r => chunkFilterPred st filters r.1))
    ∧ (∀ (st : Store) (f1 f2 : List (String × String)) (c : EnhancedChunk),
        chunkFilterPred st (f1 ++ f2) c
          = (chunkFilterPred st f1 c && chunkFilterPred st f2 c)) := by
  refine ⟨?_, ?_, ?_⟩
  · intro dist st collectionName q k filters key v hkey
    simp only [List.mem_cons, List.mem_singleton] at hkey
    push_neg at hkey
    obtain ⟨h1, h2, h3⟩ := hkey
    have hpred : ∀ c, chunkFilterPred st ((key, v) :: filters) c
        = chunkFilterPred st filters c := by
      intro c
      simp [chunkFilterPred, h1, h2, h3]
    have hjoin : joinRow st collectionName ((key, v) :: filters)
        = joinRow st collectionName filters := by
      funext r
      unfold joinRow
      cases hfind : st.chunks.find? (fun row => row.chunk.id == r.1) with
      | none => rfl
      | some row =>
        dsimp only
        rw [hpred]
    unfold QuerySimilarChunks queryRows
    rw [hjoin]
  · intro dist st collectionName q k filters
    unfold queryRows
    exact filterMap_joinRow_filter st collectionName filters _
  · intro st f1 f2 c
    simp [chunkFilterPred, List.all_append]

/-- Witness for the amended C3: an unknown filter key is ignored at a
concrete store and query. -/
theorem queryFilters_and_after_cutoff_witness :
    (("weird" : String) ∉ (["chunk_type", "section", "doc_type"] : List String))
    ∧ QuerySimilarChunks dist1 cexStore "col" [0] 2
        [("weird", "x"), ("chunk_type", "section")]
      = QuerySimilarChunks dist1 cexStore "col" [0] 2
        [("chunk_type", "section")] :=
  ⟨by decide,
    queryFilters_and_after_cutoff.1 dist1 cexStore "col" [0] 2
      [("chunk_type", "section")] "weird" "x" (by decide)⟩

/-! ## Claim C4: AddEmbeddings dimension discovery and batch rejection -/

/-- A batch containing a non-empty embedding of the wrong length makes the
transactional insert loop fail. -/
theorem insertEmbRows_mismatch_error (dim : Nat) :
    ∀ (cs : List EnhancedChunk) (rows : List (String × Vec)),
      (∃ c ∈ cs, c.embedding ≠ [] ∧ c.embedding.length ≠ dim) →
      ∃ e, insertEmbRows rows dim cs = .error e := by
  intro cs
  induction cs with
  | nil => intro rows h; simp at h
  | cons c cs ih =>
    intro rows hbad
    unfold insertEmbRows
    by_cases hemp : c.embedding.length = 0
    · rw [if_pos hemp]
      refine ih _ ?_
      obtain ⟨c', hc', hne, hlen⟩ := hbad
      rcases List.mem_cons.mp hc' with hceq | hmem
      · subst hceq
        exact absurd (List.length_eq_zero.mp hemp) hne
      · exact ⟨c', hmem, hne, hlen⟩
    · rw [if_neg hemp]
      by_cases hdim : c.embedding.length ≠ dim
      · rw [if_pos hdim]
        exact ⟨_, rfl⟩
      · rw [if_neg hdim]
        refine ih _ ?_
        obtain ⟨c', hc', hne, hlen⟩ := hbad
        rcases List.mem_cons.mp hc' with hceq | hmem
        · subst hceq
          exact absurd hlen hdim
        · exact ⟨c', hmem, hne, hlen⟩

/-- **C4 (amended).**  `AddEmbeddings` discovers the dimension `D` from the
first chunk with a non-empty embedding; if any other non-empty embedding in
the batch has a different length, the call errors and no embedding of the
batch is persisted (the transaction rolls back, leaving exactly the state
produced by the dimension-discovery step).  The *store-unchanged* clause of
the claim holds only when the embedding table already exists at dimension
`D` (and holds no row under the probe key): when the existing table has a
different dimension, the discovery step has already dropped and recreated
the table empty before the failure, losing the previously stored embeddings
(see the counterexample). -/
theorem addEmbeddings_mismatch_rejects (st : Store)
    (chunks : List EnhancedChunk) (c0 : EnhancedChunk)
    (hfind : chunks.find? (fun c => c.embedding.length > 0) = some c0)
    (hbad : ∃ c ∈ chunks, c.embedding ≠ []
        ∧ c.embedding.length ≠ c0.embedding.length) :
    (AddEmbeddings st chunks).2.isSome = true
    ∧ (AddEmbeddings st chunks).1
        = { st with
            embTable := some (ensureEmbeddingTableExists st.embTable c0.embedding.length) }
    ∧ (∀ rows, st.embTable = some (c0.embedding.length, rows) →
        (∀ r ∈ rows, r.1 ≠ "test_dimension_check") →
        (AddEmbeddings st chunks).1 = st) := by
  have hne : chunks ≠ [] := by
    intro h
    rw [h] at hfind
    simp at hfind
  have hemp : chunks.isEmpty = false := by
    cases chunks with
    | nil => exact absurd rfl hne
    | cons _ _ => rfl
  obtain ⟨e, herr⟩ := insertEmbRows_mismatch_error c0.embedding.length chunks
    (ensureEmbeddingTableExists st.embTable c0.embedding.length).2 hbad
  have hmain : AddEmbeddings st chunks
      = ({ st with
           embTable := some (ensureEmbeddingTableExists st.embTable c0.embedding.length) },
         some e) := by
    unfold AddEmbeddings
    rw [hemp]
    simp only [Bool.false_eq_true, if_false]
    rw [hfind]
    dsimp only
    rw [herr]
  refine ⟨by rw [hmain]; rfl, by rw [hmain], ?_⟩
  intro rows htab hprobe
  rw [hmain]
  have hfilter : rows.filter (fun r => r.1 ≠ "test_dimension_check") = rows :=
    List.filter_eq_self.mpr (fun r hr => by simpa using hprobe r hr)
  have hens : ensureEmbeddingTableExists st.embTable c0.embedding.length
      = (c0.embedding.length, rows) := by
    rw [htab]
    unfold ensureEmbeddingTableExists
    dsimp only
    rw [if_neg (fun h => h rfl), hfilter]
  rw [hens, ← htab]

def c4store : Store := { embTable := some (2, [("x", [1, 2])]) }

def c4chunks : List EnhancedChunk :=
  [{ id := "a", embedding := [1, 2, 3] }, { id := "b", embedding := [1, 2, 3, 4] }]

/-- A store whose embedding table already has the batch's dimension. -/
def c4store2 : Store := { embTable := some (3, [("x", [7, 8, 9])]) }

/-- **C4 counterexample** (to the "embedding store is unchanged on error"
clause).  The store holds a dimension-2 table with one embedding; a batch
whose discovered dimension is 3 but which contains a dimension-4 embedding
errors — yet the store's table has been dropped and recreated empty at
dimension 3 by the discovery step, losing the stored embedding. -/
theorem addEmbeddings_store_changed_cex :
    (AddEmbeddings c4store c4chunks).2.isSome = true
    ∧ (AddEmbeddings c4store c4chunks).1.embTable = some (3, [])
    ∧ c4store.embTable = some (2, [("x", [1, 2])])
    ∧ (AddEmbeddings c4store c4chunks).1 ≠ c4store :=
  ⟨by decide, by decide, rfl, by decide⟩

/-- Witness for the amended C4 at a store whose table dimension already
matches: the mismatched batch errors and the store is exactly unchanged. -/
theorem addEmbeddings_mismatch_rejects_witness :
    (c4chunks.find? (fun c => c.embedding.length > 0)
        = some { id := "a", embedding := [1, 2, 3] })
    ∧ (∃ c ∈ c4chunks, c.embedding ≠ []
        ∧ c.embedding.length ≠ ([(1 : ℚ), 2, 3] : Vec).length)
    ∧ (AddEmbeddings c4store2 c4chunks).1 = c4store2 := by
  have hfind : c4chunks.find? (fun c => c.embedding.length > 0)
      = some { id := "a", embedding := [1, 2, 3] } := by decide
  have hbad : ∃ c ∈ c4chunks, c.embedding ≠ []
      ∧ c.embedding.length ≠ ([(1 : ℚ), 2, 3] : Vec).length := by decide
  exact ⟨hfind, hbad,
    (addEmbeddings_mismatch_rejects c4store2 c4chunks _ hfind hbad).2.2
      [("x", [7, 8, 9])] rfl (by decide)⟩

/-! ## Claim C6: re-ingesting the same document id -/

/-- Characterisation of the chunk-insert loop of `AddDocument`: afterwards a
row is present iff it is one of the newly inserted rows, or it was present
before and its chunk id is not among the inserted ids. -/
theorem addDocument_chunk_rows (collectionName : String) :
    ∀ (cs : List EnhancedChunk) (rows : List ChunkRow),
      (cs.map (fun c => c.id)).Nodup →
      ∀ r, r ∈ cs.foldl (fun rows c => insertEnhancedChunk collectionName c rows) rows ↔
        ((∃ c ∈ cs, r = mkChunkRow collectionName c)
          ∨ (r ∈ rows ∧ r.chunk.id ∉ cs.map (fun c => c.id))) := by
  intro cs
  induction cs with
  | nil => intro rows _ r; simp
  | cons c cs ih =>
    intro rows hnodup r
    rw [List.foldl_cons]
    have hnodup' : (cs.map (fun c => c.id)).Nodup := by
      rw [List.map_cons, List.nodup_cons] at hnodup
      exact hnodup.2
    have hcnotin : c.id ∉ cs.map (fun c => c.id) := by
      rw [List.map_cons, List.nodup_cons] at hnodup
      exact hnodup.1
    rw [ih _ hnodup']
    constructor
    · rintro (⟨c', hc', rfl⟩ | ⟨hrmem, hrnot⟩)
      · exact Or.inl ⟨c', List.mem_cons_of_mem _ hc', rfl⟩
      · rcases List.mem_append.mp hrmem with hf | hs
        · have hmf := List.mem_filter.mp hf
          refine Or.inr ⟨hmf.1, ?_⟩
          simp only [List.map_cons, List.mem_cons]
          push_neg
          exact ⟨by simpa using hmf.2, by simpa using hrnot⟩
        · have hreq : r = mkChunkRow collectionName c := by simpa using hs
          exact Or.inl ⟨c, List.mem_cons_self _ _, hreq⟩
    · rintro (⟨c', hc', rfl⟩ | ⟨hrmem, hrnot⟩)
      · rcases List.mem_cons.mp hc' with hceq | hcs
        · subst hceq
          refine Or.inr ⟨List.mem_append.mpr (Or.inr (by simp)), ?_⟩
          simpa [mkChunkRow] using hcnotin
        · exact Or.inl ⟨c', hcs, rfl⟩
      · simp only [List.map_cons, List.mem_cons] at hrnot
        push_neg at hrnot
        refine Or.inr ⟨?_, by simpa using hrnot.2⟩
        refine List.mem_append.mpr (Or.inl (List.mem_filter.mpr ⟨hrmem, ?_⟩))
        simpa using hrnot.1

/-- **C6 (amended).**  After `AddDocument`, the chunk rows are exactly: the
newly ingested document's chunks (with the embedding column stripped), plus
every pre-existing row whose chunk id differs from all new chunk ids — in
particular, chunks of an earlier ingest under the same *document* id but
different chunk ids remain; re-ingesting a document id does **not** replace
it wholesale (see the counterexample). -/
theorem addDocument_replaces (st : Store) (collectionName : String)
    (doc : Document)
    (hnodup : (doc.chunks.map (fun c => c.id)).Nodup) :
    ∀ r, r ∈ (AddDocument st collectionName doc).chunks ↔
      ((∃ c ∈ doc.chunks, r = mkChunkRow collectionName c)
        ∨ (r ∈ st.chunks ∧ r.chunk.id ∉ doc.chunks.map (fun c => c.id))) := by
  intro r
  unfold AddDocument
  dsimp only
  exact addDocument_chunk_rows collectionName doc.chunks st.chunks hnodup r

def c6old : EnhancedChunk := { id := "c-old", documentID := "d" }

def c6new : EnhancedChunk := { id := "c-new", documentID := "d" }

def c6store : Store :=
  { documents := [{ id := "d", collectionName := "col" }],
    chunks := [{ collectionName := "col", chunk := c6old }] }

def c6doc : Document := { id := "d", chunks := [c6new] }

/-- **C6 counterexample.**  Re-ingesting document id "d" (one new chunk,
fresh chunk id) leaves **two** chunk rows with `document_id = "d"`: the old
chunk row survives, because `AddDocument` only `INSERT OR REPLACE`s by chunk
id and never deletes the prior chunks of the document. -/
theorem addDocument_stale_chunks_cex :
    (((AddDocument c6store "col" c6doc).chunks.filter
        (fun r => r.chunk.documentID == "d")).length = 2)
    ∧ ({ collectionName := "col", chunk := c6old } : ChunkRow)
        ∈ (AddDocument c6store "col" c6doc).chunks
    ∧ (c6old ∉ c6doc.chunks) :=
  ⟨by decide, by decide, by decide⟩

/-- Witness for the amended C6 at the concrete store: the stale row's
membership is characterised by the theorem. -/
theorem addDocument_replaces_witness :
    ((c6doc.chunks.map (fun c => c.id)).Nodup)
    ∧ (({ collectionName := "col", chunk := c6old } : ChunkRow)
          ∈ (AddDocument c6store "col" c6doc).chunks ↔
        ((∃ c ∈ c6doc.chunks,
            ({ collectionName := "col", chunk := c6old } : ChunkRow)
              = mkChunkRow "col" c)
          ∨ (({ collectionName := "col", chunk := c6old } : ChunkRow)
                ∈ c6store.chunks
              ∧ c6old.id ∉ c6doc.chunks.map (fun c => c.id)))) :=
  ⟨by decide, addDocument_replaces c6store "col" c6doc (by decide) _⟩

/-! ## Re-ranker (src/core/rag_service.go) -/

section Reranker

/-- Model of `strings.Fields`: maximal runs of non-whitespace. -/
def fieldsAux : Str → Str → List Str
  | acc, [] => if acc.isEmpty then [] else [acc.reverse]
  | acc, c :: cs =>
    if isSpaceChar c then
      (if acc.isEmpty then [] else [acc.reverse]) ++ fieldsAux [] cs
    else fieldsAux (c :: acc) cs

def fieldsOf (s : Str) : List Str := fieldsAux [] s

/-- The position-related keyword set of `isPositionQuery`. -/
def positionKeywords : List Str :=
  ["position".data, "role".data, "job".data, "title".data, "lead".data,
   "manager".data, "director".data, "senior".data, "junior".data,
   "principal".data, "team lead".data, "leadership".data]

/-- Model of `isPositionQuery` (argument is the lower-cased query). -/
def isPositionQuery (queryLower : Str) : Bool :=
  positionKeywords.any (fun k => containsSub k queryLower)

/-- Model of `isExperienceRelated`. -/
def isExperienceRelated (c : EnhancedChunk) : Bool :=
  c.chunkType == "job_entry"
    || (!c.sectionTag.isEmpty
        && (["experience".data, "employment".data, "career".data,
             "work".data, "professional".data] : List Str).any
            (fun t => containsSub t (c.sectionTag.map Char.toLower)))

/-- The keyword-overlap count: for every chunk keyword and query word,
count substring matches in either direction. -/
def keywordMatches (queryWords : List Str) (keywords : List Str) : Nat :=
  (keywords.map (fun kw =>
    (queryWords.filter (fun w =>
      containsSub w (kw.map Char.toLower)
        || containsSub (kw.map Char.toLower) w)).length)).sum

/-- One conditional multiplicative boost (`score *= m` under a condition);
when the condition fails no multiplication is performed, as in the Go
code. -/
def boostIf (cond : Bool) (m s : ℚ) : ℚ := if cond then s * m else s

/-- Model of `calculateRerankedScore`: the boost stages in source order
(chunk-type switch; position+experience; the three section-alignment
boosts; keyword overlap; position metadata; text length if/else-if;
confidence), capped at 1.0. -/
def calculateRerankedScore (query : String) (c : EnhancedChunk)
    (originalScore : ℚ) : ℚ :=
  let queryLower := query.data.map Char.toLower
  let queryWords := fieldsOf queryLower
  let sectionLower := c.sectionTag.map Char.toLower
  let km := keywordMatches queryWords c.keywords
  let textLength := c.text.length
  let s1 := boostIf (c.chunkType == "section" || c.chunkType == "paragraph")
    (12/10) originalScore
  let s2 := boostIf (c.chunkType == "job_entry") (14/10) s1
  let s3 := boostIf (c.chunkType == "section_part") (11/10) s2
  let s4 := boostIf (c.chunkType == "parent") (13/10) s3
  let s5 := boostIf (isPositionQuery queryLower && isExperienceRelated c)
    (15/10) s4
  let s6 := boostIf (!c.sectionTag.isEmpty
    && (isPositionQuery queryLower
        && containsSub "experience".data sectionLower)) (14/10) s5
  let s7 := boostIf (!c.sectionTag.isEmpty
    && (containsSub "skill".data queryLower
        && containsSub "skill".data sectionLower)) (14/10) s6
  let s8 := boostIf (!c.sectionTag.isEmpty
    && (containsSub "education".data queryLower
        && containsSub "education".data sectionLower)) (14/10) s7
  let s9 := boostIf (decide (km > 0)) (1 + (km : ℚ) * (15/100)) s8
  let s10 := boostIf
    ((match c.metadata.lookup "position" with
      | some p => !(p == "")
      | none => false) && isPositionQuery queryLower) (13/10) s9
  let s11 := boostIf (decide (100 ≤ textLength) && decide (textLength ≤ 1000))
    (11/10) s10
  let s12 := boostIf (!(decide (100 ≤ textLength) && decide (textLength ≤ 1000))
    && decide (textLength > 2000)) (9/10) s11
  let s13 := boostIf (decide (0 < c.confidence))
    (1 + c.confidence * (2/10)) s12
  min s13 1

/-- Descending comparator on re-ranked scores (`sort.Slice` by
`reranked >`; ties in enumeration order, covering Go's unspecified tie
behaviour as in the other sorts). -/
def byRerankedDesc (a b : EnhancedChunk × ℚ) : Bool := decide (b.2 ≤ a.2)

/-- Model of `rerankChunks`: score every chunk with its original score
(paired by position), sort by descending re-ranked score, and return the
chunks and scores. -/
def rerankChunks (query : String) (chunks : List EnhancedChunk)
    (originalScores : List ℚ) : List EnhancedChunk × List ℚ :=
  let chunkScores := (chunks.zip originalScores).map
    (fun p => (p.1, calculateRerankedScore query p.1 p.2))
  let sorted := insertionSortBy byRerankedDesc chunkScores
  (sorted.map Prod.fst, sorted.map Prod.snd)

end Reranker

/-! ## Claim C9: re-ranked score bounds and ordering -/

theorem boostIf_nonneg (cond : Bool) (m s : ℚ)
    (hm : cond = true → 0 ≤ m) (hs : 0 ≤ s) : 0 ≤ boostIf cond m s := by
  unfold boostIf
  split_ifs with h
  · exact mul_nonneg hs (hm h)
  · exact hs

/-- Every boost stage multiplies by a positive factor, so a non-negative
input score yields a non-negative re-ranked score. -/
theorem calculateRerankedScore_nonneg (query : String) (c : EnhancedChunk)
    (s : ℚ) (hs : 0 ≤ s) : 0 ≤ calculateRerankedScore query c s := by
  unfold calculateRerankedScore
  refine le_min ?_ (by norm_num)
  refine boostIf_nonneg _ _ _ ?_ ?_
  · intro hc
    simp only [decide_eq_true_eq] at hc
    nlinarith
  refine boostIf_nonneg _ _ _ (fun _ => by norm_num) ?_
  refine boostIf_nonneg _ _ _ (fun _ => by norm_num) ?_
  refine boostIf_nonneg _ _ _ (fun _ => by norm_num) ?_
  refine boostIf_nonneg _ _ _ ?_ ?_
  · intro _
    positivity
  refine boostIf_nonneg _ _ _ (fun _ => by norm_num) ?_
  refine boostIf_nonneg _ _ _ (fun _ => by norm_num) ?_
  refine boostIf_nonneg _ _ _ (fun _ => by norm_num) ?_
  refine boostIf_nonneg _ _ _ (fun _ => by norm_num) ?_
  refine boostIf_nonneg _ _ _ (fun _ => by norm_num) ?_
  refine boostIf_nonneg _ _ _ (fun _ => by norm_num) ?_
  refine boostIf_nonneg _ _ _ (fun _ => by norm_num) ?_
  exact boostIf_nonneg _ _ _ (fun _ => by norm_num) hs

/-- The final `math.Min(score, 1.0)` caps every re-ranked score at 1. -/
theorem calculateRerankedScore_le_one (query : String) (c : EnhancedChunk)
    (s : ℚ) : calculateRerankedScore query c s ≤ 1 := by
  unfold calculateRerankedScore
  exact min_le_right _ _

theorem byRerankedDesc_trans : ∀ x y z : EnhancedChunk × ℚ,
    byRerankedDesc x y = true → byRerankedDesc y z = true →
    byRerankedDesc x z = true := by
  intro x y z hxy hyz
  simp only [byRerankedDesc, decide_eq_true_eq] at *
  exact le_trans hyz hxy

theorem byRerankedDesc_total : ∀ x y : EnhancedChunk × ℚ,
    byRerankedDesc x y = true ∨ byRerankedDesc y x = true := by
  intro x y
  simp only [byRerankedDesc, decide_eq_true_eq]
  exact le_total _ _

/-- **C9 (amended).**  Every re-ranked score is at most 1.0, and the output
is sorted in non-increasing order of re-ranked score (the comparator is a
total order on scores).  The "at least 0" clause of the claim holds only
when the original similarity scores are non-negative: a negative original
score (similarity `1 − distance` is negative whenever the distance exceeds
1) yields a negative re-ranked score (see the counterexample). -/
theorem rerankChunks_bounds (query : String) (chunks : List EnhancedChunk)
    (originalScores : List ℚ) :
    (∀ r ∈ (rerankChunks query chunks originalScores).2, r ≤ 1)
    ∧ ((rerankChunks query chunks originalScores).2).Pairwise
        (fun a b => b ≤ a)
    ∧ ((∀ s ∈ originalScores, 0 ≤ s) →
        ∀ r ∈ (rerankChunks query chunks originalScores).2, 0 ≤ r) := by
  have hmem : ∀ r ∈ (rerankChunks query chunks originalScores).2,
      ∃ p ∈ chunks.zip originalScores,
        r = calculateRerankedScore query p.1 p.2 := by
    intro r hr
    unfold rerankChunks at hr
    simp only [List.mem_map] at hr
    obtain ⟨q, hq, hqr⟩ := hr
    have hq' : q ∈ (chunks.zip originalScores).map
        (fun p => (p.1, calculateRerankedScore query p.1 p.2)) :=
      (insertionSortBy_perm byRerankedDesc _).mem_iff.mp hq
    obtain ⟨p, hp, hpq⟩ := List.mem_map.mp hq'
    exact ⟨p, hp, by rw [← hqr, ← hpq]⟩
  refine ⟨?_, ?_, ?_⟩
  · intro r hr
    obtain ⟨p, -, rfl⟩ := hmem r hr
    exact calculateRerankedScore_le_one query p.1 p.2
  · have h1 := insertionSortBy_pairwise byRerankedDesc byRerankedDesc_trans
      byRerankedDesc_total ((chunks.zip originalScores).map
        (fun p => (p.1, calculateRerankedScore query p.1 p.2)))
    unfold rerankChunks
    simp only []
    rw [List.pairwise_map]
    refine h1.imp ?_
    intro a b h
    simpa [byRerankedDesc] using h
  · intro hpos r hr
    obtain ⟨p, hp, rfl⟩ := hmem r hr
    have hs : p.2 ∈ originalScores := (List.mem_zip hp).2
    exact calculateRerankedScore_nonneg query p.1 p.2 (hpos p.2 hs)

/-- **C9 counterexample.**  With original similarity scores `−2` (distance
3, similarity `1 − 3`), both re-ranked scores are `−2 < 0`: re-ranked scores
are *not* at least 0 in general. -/
theorem rerankChunks_negative_cex :
    (rerankChunks "q" [{ id := "n1" }, { id := "n2" }] [-2, -2]).2 = [-2, -2]
    ∧ ¬ (0 : ℚ) ≤ -2 :=
  ⟨by decide, by decide⟩

/-- Witness for the amended C9 at concrete inputs with non-negative original
scores. -/
theorem rerankChunks_bounds_witness :
    (∀ s ∈ ([1, 0] : List ℚ), 0 ≤ s)
    ∧ (0 : ℚ) ≤ ((rerankChunks "q" [{ id := "w1" }, { id := "w2" }]
        [1, 0]).2).headD 0 := by
  have hs : ∀ s ∈ ([1, 0] : List ℚ), 0 ≤ s := by decide
  refine ⟨hs, (rerankChunks_bounds "q" [{ id := "w1" }, { id := "w2" }]
    [1, 0]).2.2 hs _ ?_⟩
  decide

/-- Witness for the amended C8 at the concrete text and the reversed
enumeration order. -/
theorem extractKeywords_top10_witness :
    (List.Perm [(("def".data : Str), 1), ("abc".data, 1)]
        (wordCounts "abc def".data))
    ∧ ((extractKeywordsFrom [(("def".data : Str), 1), ("abc".data, 1)]).length ≤ 10
        ∧ (∀ w ∈ extractKeywordsFrom [(("def".data : Str), 1), ("abc".data, 1)],
            ∃ c, (w, c) ∈ wordCounts "abc def".data)
        ∧ (insertionSortBy byCountDesc
            [(("def".data : Str), 1), ("abc".data, 1)]).Pairwise
              (fun p q => q.2 ≤ p.2)
        ∧ (∀ p ∈ (insertionSortBy byCountDesc
              [(("def".data : Str), 1), ("abc".data, 1)]).take 10,
            ∀ q ∈ (insertionSortBy byCountDesc
              [(("def".data : Str), 1), ("abc".data, 1)]).drop 10, q.2 ≤ p.2)) := by
  have hperm : List.Perm [(("def".data : Str), 1), ("abc".data, 1)]
      (wordCounts "abc def".data) := by
    have h : wordCounts "abc def".data = [("abc".data, 1), ("def".data, 1)] := by
      decide
    rw [h]
    exact List.Perm.swap ("abc".data, 1) ("def".data, 1) []
  exact ⟨hperm, extractKeywords_top10 "abc def".data _ hperm⟩
